import Mathlib

/-!
Nachos thread synchronisation: semaphores, locks, condition variables.

A shallow embedding of `c++/threads/synch.cc` (Semaphore, Lock, Condition) and of
`trunk/c++/threads/threadtest.cc` (LockingTest, ThreadTest) as a transition system
on an explicit machine state.

* Every thread has a program counter `PC`; a value of `PC` names a source line at
  which another thread may be interleaved.  The code between two such points runs
  with interrupts disabled (or is a single statement) and is one transition.
* Calls are inlined: the program counters of `Lock::Acquire` and `Lock::Release`
  carry the `Caller` they return to, since both are called from client code, from
  `Condition::Wait` and from `LockingTest`.
* The C++ `int` fields `value` and `someInt` are 32-bit machine integers: they are
  kept in `Int`, and the only arithmetic on them, `++` and `--`, goes through
  `wrap32`, the reduction modulo `2^32` into the range `-2^31 .. 2^31 - 1`
  (`INT_MIN .. INT_MAX`).  So `value++` at `INT_MAX` gives `INT_MIN` and `value--`
  at `INT_MIN` gives `INT_MAX`, as the compiled code does.
* `List`, `Scheduler`, `Thread`, `Interrupt` and the `ASSERT` macro are not part of
  the files embedded here; they are modelled from the specification and marked so.
-/

namespace Nachos

/-- Thread identity: stands for a `Thread*`, compared only for equality. -/
abbrev Tid := Nat

/-- Interrupt masking level (`IntStatus` of the interrupt module). -/
inductive IntStatus where
  | IntOff
  | IntOn
  deriving DecidableEq, Repr

/-- Modelled from the spec: the WaitQueue (`List` of the repository), an ordered
sequence of thread identities. -/
abbrev WaitQueue := List Tid

/-- Modelled from the spec: `List::Append`, insertion is always at the tail. -/
def WaitQueue.Append (q : WaitQueue) (t : Tid) : WaitQueue := q ++ [t]

/-- Modelled from the spec: `List::Remove`, removal is always from the head; an
empty queue yields no entry (`NULL`). -/
def WaitQueue.Remove : WaitQueue → Option Tid × WaitQueue
  | [] => (none, [])
  | t :: rest => (some t, rest)

/-- Modelled from the spec: `Scheduler::ReadyToRun`, admits a thread identity to
the ready set (kept in admission order). -/
def ReadyToRun (thread : Tid) (readyList : List Tid) : List Tid := readyList ++ [thread]

/-- The result of 32-bit `int` arithmetic: the mathematical result `x` reduced modulo
`2^32 = 4294967296` into the range `-2147483648 .. 2147483647` of a C++ `int`
(two's complement wrap-around). -/
def wrap32 (x : Int) : Int := (x + 2147483648) % 4294967296 - 2147483648

/-- Fields of `class Semaphore` (the debug name has no semantic effect).  The field
`value` is the C++ `int value`: every statement that changes it (`value++`,
`value--`) stores the result of `wrap32`, so it stays within the `int` range. -/
structure Semaphore where
  value : Int
  queue : WaitQueue
  deriving DecidableEq, Repr

/-- Fields of `class Lock`: `ownerThread = none` is the `NULL` pointer. -/
structure Lock where
  sem : Semaphore
  ownerThread : Option Tid
  deriving DecidableEq, Repr

/-- Fields of `class Condition`. -/
structure Condition where
  waitingThreads : WaitQueue
  deriving DecidableEq, Repr

/-- Constructor `Semaphore::Semaphore` (synch.cc:37-42): `value = initialValue`,
where `initialValue` is the `int` argument; there is no check on its sign. -/
def Semaphore.new (initialValue : Int) : Semaphore :=
  { value := initialValue, queue := [] }

/-- Constructor `Lock::Lock` (synch.cc:106-110). -/
def Lock.new : Lock :=
  { sem := Semaphore.new 1, ownerThread := none }

/-- Constructor `Condition::Condition` (synch.cc:141-145). -/
def Condition.new : Condition :=
  { waitingThreads := [] }

/-- Predicate `Lock::isHeldByCurrentThread` (synch.cc:136-139): `ownerThread == currentThread`. -/
def Lock.isHeldByCurrentThread (l : Lock) (currentThread : Tid) : Bool :=
  l.ownerThread == some currentThread

/-- One evaluation of the loop test of `Semaphore::P` (synch.cc:70-74) by thread
`currentThread`, interrupts being off.  Result `true`: the value was 0, the thread
was appended to the queue and must `Sleep`.  Result `false`: the loop was left and
the value decremented (`value--` on an `int`: from `INT_MIN` it wraps to `INT_MAX`). -/
def Semaphore.P (sem : Semaphore) (currentThread : Tid) : Semaphore × Bool :=
  if sem.value = 0 then
    ({ sem with queue := WaitQueue.Append sem.queue currentThread }, true)
  else
    ({ sem with value := wrap32 (sem.value - 1) }, false)

/-- The atomic section of `Semaphore::V` (synch.cc:94-97) on the semaphore and the
scheduler's ready list; `value++` on an `int`: from `INT_MAX` it wraps to `INT_MIN`. -/
def Semaphore.V (sem : Semaphore) (readyList : List Tid) : Semaphore × List Tid :=
  let (thread, queue) := WaitQueue.Remove sem.queue
  let readyList :=
    match thread with
    | some t => ReadyToRun t readyList
    | none => readyList
  ({ value := wrap32 (sem.value + 1), queue := queue }, readyList)

/-- The atomic section of `Condition::Signal` (synch.cc:172-176). -/
def Condition.Signal (cv : Condition) (readyList : List Tid) : Condition × List Tid :=
  let (threadToRun, waiting) := WaitQueue.Remove cv.waitingThreads
  match threadToRun with
  | some t => ({ waitingThreads := waiting }, ReadyToRun t readyList)
  | none => ({ waitingThreads := waiting }, readyList)

/-- The loop of `Condition::Broadcast` (synch.cc:186-190), entered with the
result `threadToRun` of the last `Remove` and the remaining queue. -/
def Condition.BroadcastLoop (readyList : List Tid) : Option Tid → WaitQueue → WaitQueue × List Tid
  | none, waiting => (waiting, readyList)
  | some t, [] => ([], ReadyToRun t readyList)
  | some t, u :: waiting => Condition.BroadcastLoop (ReadyToRun t readyList) (some u) waiting

/-- The atomic section of `Condition::Broadcast` (synch.cc:185-190). -/
def Condition.Broadcast (cv : Condition) (readyList : List Tid) : Condition × List Tid :=
  let (threadToRun, waiting) := WaitQueue.Remove cv.waitingThreads
  let (waiting, readyList) := Condition.BroadcastLoop readyList threadToRun waiting
  ({ waitingThreads := waiting }, readyList)

/-- Who called `Lock::Acquire` or `Lock::Release`, hence where they return to. -/
inductive Caller where
  | client
  | wait
  | test
  deriving DecidableEq, Repr

/-- Program points at which a thread can be suspended or interleaved. -/
inductive PC where
  /-- in client code, free to invoke any operation -/
  | client
  /-- after `Thread::Finish` -/
  | done
  /-- synch.cc:68, `Semaphore::P` on the client semaphore -/
  | P_entry
  /-- synch.cc:70, loop test of `P` after returning from `Sleep` -/
  | P_loop (oldLevel : IntStatus)
  /-- synch.cc:92, `Semaphore::V` on the client semaphore -/
  | V_entry
  /-- synch.cc:119, `sem->P()` of `Lock::Acquire` -/
  | Acquire_P (c : Caller)
  /-- synch.cc:119 inside `P` at line 70, after returning from `Sleep` -/
  | Acquire_P_loop (c : Caller) (oldLevel : IntStatus)
  /-- synch.cc:120, `ownerThread = currentThread` -/
  | Acquire_setOwner (c : Caller)
  /-- synch.cc:128, `ASSERT(currentThread == ownerThread)` -/
  | Release_assert (c : Caller)
  /-- synch.cc:130, `ownerThread = NULL` -/
  | Release_clear (c : Caller)
  /-- synch.cc:131, `sem->V()` -/
  | Release_V (c : Caller)
  /-- synch.cc:154 -/
  | Wait_assert
  /-- synch.cc:157-159 -/
  | Wait_enqueue
  /-- synch.cc:160, after returning from `Sleep` -/
  | Wait_resume (oldLevel : IntStatus)
  /-- synch.cc:163, `Acquire` has returned, `Wait` is about to return -/
  | Wait_return
  /-- synch.cc:169 -/
  | Signal_assert
  /-- synch.cc:171-177 -/
  | Signal_body
  /-- synch.cc:182 -/
  | Broadcast_assert
  /-- synch.cc:184-191 -/
  | Broadcast_body
  /-- entry of `Thread::Yield` called from client code -/
  | Yield_entry
  /-- threadtest.cc:51, `if (someInt == 0)` -/
  | LT_check
  /-- threadtest.cc:56, `currentThread->Yield()` -/
  | LT_yield
  /-- threadtest.cc:58, `someInt++` -/
  | LT_incr
  /-- threadtest.cc:65, `ASSERT(someInt == 1)` -/
  | LT_assert
  /-- threadtest.cc:88-91, iteration `i` of the forking loop of `ThreadTest`
  with `numThreads = n` -/
  | TT_fork (i n : Nat)
  deriving DecidableEq, Repr

/-- Control state of one thread: its program point and, while it is switched out
inside `Thread::Yield` (or has been forked and never run), the interrupt level it
restores when it is next run. -/
structure ThreadCtl where
  pc : PC
  yielded : Option IntStatus
  deriving DecidableEq, Repr

/-- The machine: one client semaphore, one lock, one condition variable, the global
of threadtest.cc, and the kernel globals `interrupt`, `currentThread`, `scheduler`. -/
structure State where
  /-- a `Semaphore` used directly by client code -/
  sem : Semaphore
  lock : Lock
  cond : Condition
  /-- global `int someInt` of threadtest.cc -/
  someInt : Int
  /-- the interrupt level -/
  level : IntStatus
  /-- the running thread; `none` while the scheduler has to pick the next one -/
  currentThread : Option Tid
  /-- the scheduler's ready list -/
  readyList : List Tid
  threads : Tid → ThreadCtl
  /-- set by a failed `ASSERT` -/
  aborted : Bool

/-- Update of the thread table at one thread. -/
def setThread (f : Tid → ThreadCtl) (c : Tid) (v : ThreadCtl) : Tid → ThreadCtl :=
  fun t => if t = c then v else f t

/-- Thread `c` continues at program point `pc`. -/
def goto (c : Tid) (pc : PC) (s : State) : State :=
  { s with threads := setThread s.threads c { pc := pc, yielded := none } }

/-- Modelled from the spec: `ASSERT`, a failed assertion aborts, changing nothing
else; otherwise execution continues with `k`. -/
def ASSERT (condition : Bool) (s : State) (k : State) : State :=
  if condition then k else { s with aborted := true }

/-- Modelled from the spec: `Thread::Sleep` (suspendCurrentThread), the calling
thread leaves the processor without being put on the ready list; interrupts stay
masked and the scheduler picks the next thread. -/
def Sleep (s : State) : State :=
  { s with currentThread := none }

/-- Modelled from the spec: `Thread::Yield` by thread `c`, which continues at `next`
once it runs again.  With no other ready thread it returns at once; otherwise the
thread is put at the end of the ready list with interrupts off, and restores the
level it saved when it is switched back in. -/
def Yield (c : Tid) (next : PC) (s : State) : State :=
  match s.readyList with
  | [] => goto c next s
  | _ :: _ =>
    { s with
      level := IntStatus.IntOff
      readyList := ReadyToRun c s.readyList
      currentThread := none
      threads := setThread s.threads c { pc := next, yielded := some s.level } }

/-- The two semaphores of the machine. -/
inductive SemRef where
  | client
  | ofLock
  deriving DecidableEq, Repr

/-- Read a semaphore. -/
def getSem (r : SemRef) (s : State) : Semaphore :=
  match r with
  | SemRef.client => s.sem
  | SemRef.ofLock => s.lock.sem

/-- Write a semaphore. -/
def setSem (r : SemRef) (sem : Semaphore) (s : State) : State :=
  match r with
  | SemRef.client => { s with sem := sem }
  | SemRef.ofLock => { s with lock := { s.lock with sem := sem } }

/-- Body of `Semaphore::P` from the loop test on (synch.cc:70-77), interrupts being off and
`oldLevel` the level saved at line 68.  `loopPC` is the program point of the loop
test, `retPC` the one `P` returns to. -/
def runP (c : Tid) (r : SemRef) (oldLevel : IntStatus) (loopPC retPC : PC) (s : State) : State :=
  match (getSem r s).P c with
  | (sem, true) => Sleep (goto c loopPC (setSem r sem s))
  | (sem, false) => { goto c retPC (setSem r sem s) with level := oldLevel }

/-- Body of `Semaphore::V` (synch.cc:92-98), returning to `retPC`. -/
def runV (c : Tid) (r : SemRef) (retPC : PC) (s : State) : State :=
  let oldLevel := s.level
  let s1 := { s with level := IntStatus.IntOff }
  let (sem, readyList) := (getSem r s1).V s1.readyList
  { goto c retPC (setSem r sem s1) with readyList := readyList, level := oldLevel }

/-- Where `Lock::Acquire` returns to. -/
def Caller.afterAcquire : Caller → PC
  | Caller.client => PC.client
  | Caller.wait => PC.Wait_return
  | Caller.test => PC.LT_check

/-- Where `Lock::Release` returns to. -/
def Caller.afterRelease : Caller → PC
  | Caller.client => PC.client
  | Caller.wait => PC.Wait_enqueue
  | Caller.test => PC.LT_assert

/-- Modelled from the spec: `Thread::Finish`, the thread sleeps for ever. -/
def Finish (c : Tid) (s : State) : State :=
  Sleep { goto c PC.done s with level := IntStatus.IntOff }

/-- Modelled from the spec: `Thread::Fork` of thread `t` running `LockingTest`; the
new thread is appended to the ready list and, when first run, enables interrupts
and enters `LockingTest` at its first statement `lock->Acquire()`. -/
def Fork (t : Tid) (s : State) : State :=
  { s with
    readyList := ReadyToRun t s.readyList
    threads := setThread s.threads t
      { pc := PC.Acquire_P Caller.test, yielded := some IntStatus.IntOn } }

/-- One transition of the running thread `c` standing at program point `pc`. -/
def runPC (c : Tid) (pc : PC) (s : State) : State :=
  match pc with
  | PC.client => s
  | PC.done => s
  -- Semaphore::P, line 68 then the loop
  | PC.P_entry =>
    runP c SemRef.client s.level (PC.P_loop s.level) PC.client { s with level := IntStatus.IntOff }
  | PC.P_loop oldLevel =>
    runP c SemRef.client oldLevel (PC.P_loop oldLevel) PC.client s
  -- Semaphore::V
  | PC.V_entry => runV c SemRef.client PC.client s
  -- Lock::Acquire, line 119
  | PC.Acquire_P cl =>
    runP c SemRef.ofLock s.level (PC.Acquire_P_loop cl s.level) (PC.Acquire_setOwner cl)
      { s with level := IntStatus.IntOff }
  | PC.Acquire_P_loop cl oldLevel =>
    runP c SemRef.ofLock oldLevel (PC.Acquire_P_loop cl oldLevel) (PC.Acquire_setOwner cl) s
  -- line 120
  | PC.Acquire_setOwner cl =>
    goto c cl.afterAcquire { s with lock := { s.lock with ownerThread := some c } }
  -- Lock::Release, line 128
  | PC.Release_assert cl =>
    ASSERT (s.lock.ownerThread == some c) s (goto c (PC.Release_clear cl) s)
  -- line 130
  | PC.Release_clear cl =>
    goto c (PC.Release_V cl) { s with lock := { s.lock with ownerThread := none } }
  -- line 131
  | PC.Release_V cl => runV c SemRef.ofLock cl.afterRelease s
  -- Condition::Wait, line 154, then the call of Release at line 156
  | PC.Wait_assert =>
    ASSERT (s.lock.isHeldByCurrentThread c) s (goto c (PC.Release_assert Caller.wait) s)
  -- lines 157-159
  | PC.Wait_enqueue =>
    Sleep (goto c (PC.Wait_resume s.level)
      { s with
        level := IntStatus.IntOff
        cond := { waitingThreads := WaitQueue.Append s.cond.waitingThreads c } })
  -- line 160, then the call of Acquire at line 162
  | PC.Wait_resume oldLevel =>
    goto c (PC.Acquire_P Caller.wait) { s with level := oldLevel }
  -- line 163
  | PC.Wait_return => goto c PC.client s
  -- Condition::Signal
  | PC.Signal_assert =>
    ASSERT (s.lock.isHeldByCurrentThread c) s (goto c PC.Signal_body s)
  | PC.Signal_body =>
    let oldLevel := s.level
    let s1 := { s with level := IntStatus.IntOff }
    let (cv, readyList) := s1.cond.Signal s1.readyList
    { goto c PC.client s1 with cond := cv, readyList := readyList, level := oldLevel }
  -- Condition::Broadcast
  | PC.Broadcast_assert =>
    ASSERT (s.lock.isHeldByCurrentThread c) s (goto c PC.Broadcast_body s)
  | PC.Broadcast_body =>
    let oldLevel := s.level
    let s1 := { s with level := IntStatus.IntOff }
    let (cv, readyList) := s1.cond.Broadcast s1.readyList
    { goto c PC.client s1 with cond := cv, readyList := readyList, level := oldLevel }
  -- Thread::Yield from client code
  | PC.Yield_entry => Yield c PC.client s
  -- LockingTest, line 51
  | PC.LT_check =>
    if s.someInt = 0 then goto c PC.LT_yield s
    else goto c (PC.Release_assert Caller.test) s
  -- line 56
  | PC.LT_yield => Yield c PC.LT_incr s
  -- line 58, then the call of Release at line 62
  | PC.LT_incr =>
    goto c (PC.Release_assert Caller.test) { s with someInt := wrap32 (s.someInt + 1) }
  -- line 65, then the thread function returns and the thread finishes
  | PC.LT_assert =>
    ASSERT (s.someInt == 1) s (Finish c s)
  -- ThreadTest, lines 88-91: thread `i + 1` is forked in iteration `i`
  | PC.TT_fork i n =>
    if i < n then goto c (PC.TT_fork (i + 1) n) (Fork (i + 1) s)
    else Finish c s

/-- Operations client code may invoke. -/
inductive Op where
  | P
  | V
  | Acquire
  | Release
  | Wait
  | Signal
  | Broadcast
  | Yield
  deriving DecidableEq, Repr

/-- First program point of an operation invoked from client code. -/
def Op.entry : Op → PC
  | Op.P => PC.P_entry
  | Op.V => PC.V_entry
  | Op.Acquire => PC.Acquire_P Caller.client
  | Op.Release => PC.Release_assert Caller.client
  | Op.Wait => PC.Wait_assert
  | Op.Signal => PC.Signal_assert
  | Op.Broadcast => PC.Broadcast_assert
  | Op.Yield => PC.Yield_entry

/-- Labels of the transitions of the machine. -/
inductive Event where
  /-- the running thread executes up to its next program point -/
  | run
  /-- a timer interrupt forces the running thread to `Yield`; needs interrupts on -/
  | timer
  /-- the scheduler switches to the ready thread `t` -/
  | dispatch (t : Tid)
  /-- the running thread, in client code, invokes an operation -/
  | call (op : Op)
  /-- the running thread, in client code, sets the interrupt level -/
  | setLevel (l : IntStatus)
  deriving DecidableEq, Repr

/-- The transition function; `none` when the event is not enabled.  Nothing is
enabled after a failed assertion. -/
def step (e : Event) (s : State) : Option State :=
  if s.aborted then none else
  match e, s.currentThread with
  | Event.dispatch t, none =>
    if t ∈ s.readyList then
      some { s with currentThread := some t, readyList := s.readyList.erase t }
    else none
  | Event.dispatch _, some _ => none
  | _, none => none
  | Event.run, some c =>
    match (s.threads c).yielded with
    | some oldLevel =>
      some { goto c (s.threads c).pc s with level := oldLevel }
    | none => some (runPC c (s.threads c).pc s)
  | Event.timer, some c =>
    if s.level = IntStatus.IntOn ∧ (s.threads c).yielded = none then
      some (Yield c (s.threads c).pc s)
    else none
  | Event.call op, some c =>
    if (s.threads c).yielded = none ∧ (s.threads c).pc = PC.client then
      some (goto c op.entry s)
    else none
  | Event.setLevel l, some c =>
    if (s.threads c).yielded = none ∧ (s.threads c).pc = PC.client then
      some { s with level := l }
    else none

/-- Run a sequence of events; `none` if one of them is not enabled. -/
def exec (s : State) : List Event → Option State
  | [] => some s
  | e :: es => (step e s).bind fun s1 => exec s1 es

/-! ## Initial states -/

/-- A machine on which nothing has run yet: a client semaphore created with value
`c0`, a new lock and condition, thread `main` running client code with interrupts
on, and the threads of `others` forked and ready, also to run client code. -/
def initState (c0 : Int) (main : Tid) (others : List Tid) : State :=
  { sem := Semaphore.new c0
    lock := Lock.new
    cond := Condition.new
    someInt := 0
    level := IntStatus.IntOn
    currentThread := some main
    readyList := others
    threads := fun t =>
      if t = main then { pc := PC.client, yielded := none }
      else { pc := PC.client, yielded := some IntStatus.IntOn }
    aborted := false }

/-- The machine at the call of `ThreadTest` with `numThreads = n` (5 in the source):
thread 0 is about to run the forking loop, `someInt` is 0, the shared lock is new,
no other thread exists yet. -/
def threadTestInit (n : Nat) : State :=
  { sem := Semaphore.new 0
    lock := Lock.new
    cond := Condition.new
    someInt := 0
    level := IntStatus.IntOn
    currentThread := some 0
    readyList := []
    threads := fun t =>
      if t = 0 then { pc := PC.TT_fork 0 n, yielded := none }
      else { pc := PC.done, yielded := none }
    aborted := false }

/-- Program points at which a thread can stand before anything has run: client
code, a finished thread, the first statement of `LockingTest`, the loop of
`ThreadTest`. -/
def PC.isStart : PC → Bool
  | PC.client => true
  | PC.done => true
  | PC.Acquire_P Caller.test => true
  | PC.TT_fork _ _ => true
  | _ => false

/-- Initial states: the lock is new, `someInt` is 0 and no operation is in
progress.  The semaphore, the condition and the scheduler are unconstrained. -/
def Initial (s : State) : Prop :=
  s.lock = Lock.new ∧ s.someInt = 0 ∧ ∀ t, (s.threads t).pc.isStart = true

/-! ## Trace statistics -/

/-- The event completes a `V` on the client semaphore. -/
def completesV (s : State) (e : Event) : Bool :=
  match e, s.currentThread with
  | Event.run, some c => (s.threads c).yielded == none && (s.threads c).pc == PC.V_entry
  | _, _ => false

/-- The event makes a `P` on the client semaphore return: the running thread
evaluates the loop test of `P` and finds the value different from 0. -/
def returnsP (s : State) (e : Event) : Bool :=
  match e, s.currentThread with
  | Event.run, some c =>
    (s.threads c).yielded == none && s.sem.value != 0 &&
      match (s.threads c).pc with
      | PC.P_entry => true
      | PC.P_loop _ => true
      | _ => false
  | _, _ => false

/-- Number of events of a run, started in `s`, that satisfy `p` in the state in
which they are taken. -/
def countOf (p : State → Event → Bool) (s : State) : List Event → Nat
  | [] => 0
  | e :: es =>
    match step e s with
    | none => 0
    | some s1 => (if p s e then 1 else 0) + countOf p s1 es

/-- The threads of `ts`, in this order, each execute one transition from program
point `pc`. -/
def runAll (pc : PC) (ts : List Tid) (s : State) : State :=
  ts.foldl (fun st t => runPC t pc st) s

/-! ## The lock invariant -/

/-- The thread has taken the value of the lock's semaphore and the owner field is
`NULL`: between `P` and line 120, and between line 130 and `V`. -/
def PC.pending : PC → Bool
  | PC.Acquire_setOwner _ => true
  | PC.Release_V _ => true
  | _ => false

/-- Program points at which the thread is the owner of the lock: after a passed
ownership assertion, after `Acquire` returned into `Wait` or `LockingTest`. -/
def PC.mustOwn : PC → Bool
  | PC.Release_clear _ => true
  | PC.Release_assert Caller.wait => true
  | PC.Release_assert Caller.test => true
  | PC.Wait_return => true
  | PC.Signal_body => true
  | PC.Broadcast_body => true
  | PC.LT_check => true
  | PC.LT_yield => true
  | PC.LT_incr => true
  | _ => false

/-- Program points of `LockingTest` between the test `someInt == 0` having
succeeded and the increment. -/
def PC.sawZero : PC → Bool
  | PC.LT_yield => true
  | PC.LT_incr => true
  | _ => false

/-- Program points of `LockingTest` after the conditional of lines 51-59. -/
def PC.pastIncr : PC → Bool
  | PC.Release_assert Caller.test => true
  | PC.Release_clear Caller.test => true
  | PC.Release_V Caller.test => true
  | PC.LT_assert => true
  | _ => false

/-- Program points of the critical section of `LockingTest` (lines 51-62, up to
the clearing of the owner inside `Release`). -/
def PC.inCritical : PC → Bool
  | PC.LT_check => true
  | PC.LT_yield => true
  | PC.LT_incr => true
  | PC.Release_assert Caller.test => true
  | PC.Release_clear Caller.test => true
  | _ => false

/-- Program points of `ThreadTest` and `LockingTest`. -/
def PC.inTest : PC → Bool
  | PC.done => true
  | PC.TT_fork _ _ => true
  | PC.Acquire_P Caller.test => true
  | PC.Acquire_P_loop Caller.test _ => true
  | PC.Acquire_setOwner Caller.test => true
  | PC.Release_assert Caller.test => true
  | PC.Release_clear Caller.test => true
  | PC.Release_V Caller.test => true
  | PC.LT_check => true
  | PC.LT_yield => true
  | PC.LT_incr => true
  | PC.LT_assert => true
  | _ => false

/-- Invariant of the lock and of the counter of `LockingTest` over all
interleavings. -/
structure Inv (s : State) : Prop where
  value01 : s.lock.sem.value = 0 ∨ s.lock.sem.value = 1
  owner_value : ∀ t, s.lock.ownerThread = some t → s.lock.sem.value = 0
  pending_value : ∀ t, (s.threads t).pc.pending = true →
    s.lock.sem.value = 0 ∧ s.lock.ownerThread = none
  pending_unique : ∀ t u,
    (s.threads t).pc.pending = true → (s.threads u).pc.pending = true → t = u
  own : ∀ t, (s.threads t).pc.mustOwn = true → s.lock.ownerThread = some t
  someInt01 : s.someInt = 0 ∨ s.someInt = 1
  sawZero : ∀ t, (s.threads t).pc.sawZero = true → s.someInt = 0
  pastIncr : ∀ t, (s.threads t).pc.pastIncr = true → s.someInt = 1

/-- Invariant of a machine on which only `ThreadTest` and `LockingTest` run. -/
structure TestInv (s : State) : Prop where
  inv : Inv s
  inTest : ∀ t, (s.threads t).pc.inTest = true
  running : s.aborted = false

/-! ## Concrete runs -/

/-- A run of `ThreadTest` with two threads: thread 1 takes the lock and yields at
line 56, thread 2 blocks in `Acquire`, thread 1 increments, releases and reaches
the assertion of line 65. -/
def traceLockingTest : List Event :=
  [Event.run, Event.run, Event.run, Event.dispatch 1, Event.run, Event.run, Event.run,
    Event.run, Event.run, Event.dispatch 2, Event.run, Event.run, Event.dispatch 1, Event.run,
    Event.run, Event.run, Event.run, Event.run]

/-- A run in which thread 0 acquires the lock and waits on the condition, thread 1
acquires the lock, signals and releases, and thread 0 runs again up to the return
of `Wait` (line 163). -/
def traceWaitSignal : List Event :=
  [Event.call Op.Acquire, Event.run, Event.run, Event.call Op.Wait, Event.run, Event.run,
    Event.run, Event.run, Event.run, Event.dispatch 1, Event.run, Event.call Op.Acquire,
    Event.run, Event.run, Event.call Op.Signal, Event.run, Event.run, Event.call Op.Release,
    Event.run, Event.run, Event.run, Event.timer, Event.dispatch 0, Event.run, Event.run,
    Event.run]

/-- A run in which threads 1 and 2, one after the other, acquire the lock and wait
on the condition, and thread 0 then acquires the lock. -/
def traceTwoWaiters : List Event :=
  [Event.call Op.Acquire, Event.run, Event.run, Event.call Op.Wait, Event.run, Event.run,
    Event.run, Event.run, Event.run, Event.dispatch 2, Event.run, Event.call Op.Acquire,
    Event.run, Event.run, Event.call Op.Wait, Event.run, Event.run, Event.run, Event.run,
    Event.run, Event.dispatch 0, Event.run, Event.call Op.Acquire, Event.run, Event.run]

/-- The thread the event appends to the queue of the client semaphore, if any: the
running thread evaluates the loop test of `P` and finds the value 0. -/
def appendsP (s : State) (e : Event) : Option Tid :=
  match e, s.currentThread with
  | Event.run, some c =>
    if (s.threads c).yielded = none ∧ s.sem.value = 0 then
      match (s.threads c).pc with
      | PC.P_entry => some c
      | PC.P_loop _ => some c
      | _ => none
    else none
  | _, _ => none

/-- The thread the event removes from the queue of the client semaphore, if any:
the running thread executes `V` and the queue is not empty. -/
def removesV (s : State) (e : Event) : Option Tid :=
  match e, s.currentThread with
  | Event.run, some c =>
    if (s.threads c).yielded = none ∧ (s.threads c).pc = PC.V_entry then s.sem.queue.head?
    else none
  | _, _ => none

/-- The threads a run, started in `s`, yields under `f`, in the order of the run. -/
def collect (f : State → Event → Option Tid) (s : State) : List Event → List Tid
  | [] => []
  | e :: es =>
    match step e s with
    | none => []
    | some s1 => (f s e).toList ++ collect f s1 es

/-- A run in which threads 1, 2, 3 call `P` on the client semaphore in this order
and block, and thread 0 then calls `V` twice. -/
def traceFifo : List Event :=
  [Event.call Op.P, Event.run, Event.dispatch 2, Event.run, Event.call Op.P, Event.run,
    Event.dispatch 3, Event.run, Event.call Op.P, Event.run, Event.dispatch 0, Event.run,
    Event.call Op.V, Event.run, Event.call Op.V, Event.run]

/-- The event assigns the owner field of the lock: the running thread executes line
120 of `Lock::Acquire`, its `sem->P()` having returned. -/
def setsOwner (s : State) (e : Event) : Bool :=
  match e, s.currentThread with
  | Event.run, some c =>
    (s.threads c).yielded == none &&
      match (s.threads c).pc with
      | PC.Acquire_setOwner _ => true
      | _ => false
  | _, _ => false

/-- The scenario of a semaphore of initial value 1 as a run of the machine: thread
0 calls `P`, thread 1 calls `P` and blocks, thread 0 calls `V`, thread 1 resumes
inside `P` and returns. -/
def traceSemaphoreScenario : List Event :=
  [Event.call Op.P, Event.run, Event.timer, Event.dispatch 1, Event.run, Event.call Op.P,
    Event.run, Event.dispatch 0, Event.run, Event.call Op.V, Event.run, Event.timer,
    Event.dispatch 1, Event.run]

/-- The scenario of a new lock as a run of the machine: thread 0 acquires, thread 1
calls `Acquire` and blocks, thread 0 releases, thread 1 resumes and its `Acquire`
returns. -/
def traceLockScenario : List Event :=
  [Event.call Op.Acquire, Event.run, Event.run, Event.timer, Event.dispatch 1, Event.run,
    Event.call Op.Acquire, Event.run, Event.dispatch 0, Event.run, Event.call Op.Release,
    Event.run, Event.run, Event.run, Event.timer, Event.dispatch 1, Event.run, Event.run]

/-- First part of the lost wakeup: thread 0 acquires the lock, calls `Wait`, runs
the `Release` inside `Wait` and is preempted by the timer before line 157. -/
def traceLostWakeupA : List Event :=
  [Event.call Op.Acquire, Event.run, Event.run, Event.call Op.Wait, Event.run, Event.run,
    Event.run, Event.run, Event.timer]

/-- Second part of the lost wakeup: thread 1 runs, acquires the lock, calls `Signal`
and passes its assertion. -/
def traceLostWakeupB : List Event :=
  [Event.dispatch 1, Event.run, Event.call Op.Acquire, Event.run, Event.run,
    Event.call Op.Signal, Event.run]

/-- Second part of the lost wakeup with `Broadcast` in place of `Signal`. -/
def traceLostWakeupBroadcast : List Event :=
  [Event.dispatch 1, Event.run, Event.call Op.Acquire, Event.run, Event.run,
    Event.call Op.Broadcast, Event.run]

/-- Third part of the lost wakeup: thread 1 is preempted, thread 0 runs again,
appends itself to the queue of the condition and sleeps. -/
def traceLostWakeupC : List Event :=
  [Event.timer, Event.dispatch 0, Event.run, Event.run]

/-! ## The scheduling invariant -/

/-- Number of places at which thread `t` is recorded: the ready list, the queue of
the client semaphore, of the lock's semaphore, of the condition, and the processor. -/
def occ (s : State) (t : Tid) : Nat :=
  s.readyList.count t + s.sem.queue.count t + s.lock.sem.queue.count t +
    s.cond.waitingThreads.count t + (if s.currentThread = some t then 1 else 0)

/-- The thread the event forks, if any: the running thread executes an iteration of
the loop of `ThreadTest`. -/
def forkTarget (s : State) (e : Event) : Option Tid :=
  match e, s.currentThread with
  | Event.run, some c =>
    if (s.threads c).yielded = none then
      match (s.threads c).pc with
      | PC.TT_fork i n => if i < n then some (i + 1) else none
      | _ => none
    else none
  | _, _ => none

/-- Invariant of the scheduler and the wait queues: every thread is recorded at most
once; at most one thread runs the loop of `ThreadTest`, and the threads it has still
to fork do not exist yet (they are recorded nowhere and have never run). -/
structure Sched (s : State) : Prop where
  once : ∀ t, occ s t ≤ 1
  forker : ∀ c d i n j m,
    (s.threads c).pc = PC.TT_fork i n → (s.threads d).pc = PC.TT_fork j m → c = d
  unborn : ∀ c i n, (s.threads c).pc = PC.TT_fork i n →
    ∀ j, i < j → (s.threads j).pc = PC.done ∧ occ s j = 0

/-- The interrupt level saved by a thread suspended inside an atomic section: the
`oldLevel` of `P` (lines 68-77) or of `Wait` (lines 157-160). -/
def PC.savedLevel : PC → Option IntStatus
  | PC.P_loop l => some l
  | PC.Acquire_P_loop _ l => some l
  | PC.Wait_resume l => some l
  | _ => none

/-- A run in which thread 1 blocks in `P` on value 0, thread 0 calls `V` and then
`P`, taking the value back to 0, is preempted, and thread 1 is switched in at the
loop test of its `P`. -/
def traceRecheck : List Event :=
  [Event.call Op.P, Event.run, Event.dispatch 0, Event.run, Event.call Op.V, Event.run,
    Event.call Op.P, Event.run, Event.timer, Event.dispatch 1]

/-- A run in which thread 0 disables interrupts and calls `P` on value 0, where it
is suspended. -/
def traceMaskedP : List Event :=
  [Event.setLevel IntStatus.IntOff, Event.call Op.P, Event.run]

/-- The continuation of `traceMaskedP`: thread 1 runs with interrupts on, calls `V`
and is preempted; thread 0 is switched in and its `P` returns. -/
def traceMaskedResume : List Event :=
  [Event.dispatch 1, Event.run, Event.call Op.V, Event.run, Event.timer, Event.dispatch 0,
    Event.run]

/-! ## Basic facts on the transition function -/

/-- Within the `int` range the 32-bit result is the mathematical result. -/
theorem wrap32_of_range (x : Int) (h1 : -2147483648 ≤ x) (h2 : x ≤ 2147483647) :
    wrap32 x = x := by
  unfold wrap32
  omega

/-- The 32-bit result is always within the `int` range. -/
theorem wrap32_range (x : Int) : -2147483648 ≤ wrap32 x ∧ wrap32 x ≤ 2147483647 := by
  unfold wrap32
  omega

/-- The 32-bit result at 0. -/
@[simp]
theorem wrap32_zero : wrap32 0 = 0 := by decide

/-- The 32-bit result at 1. -/
@[simp]
theorem wrap32_one : wrap32 1 = 1 := by decide

/-- The body of `P` as a conditional on the value of the semaphore. -/
theorem runP_eq (c : Tid) (r : SemRef) (oldLevel : IntStatus) (loopPC retPC : PC) (s : State) :
    runP c r oldLevel loopPC retPC s =
      if (getSem r s).value = 0 then
        Sleep (goto c loopPC
          (setSem r { getSem r s with queue := WaitQueue.Append (getSem r s).queue c } s))
      else
        { goto c retPC (setSem r { getSem r s with value := wrap32 ((getSem r s).value - 1) } s) with
          level := oldLevel } := by
  unfold runP Semaphore.P
  split_ifs <;> rfl

/-- The model of `Yield` as a conditional on the ready list. -/
theorem Yield_eq (c : Tid) (next : PC) (s : State) :
    Yield c next s =
      if s.readyList = [] then goto c next s
      else
        { s with
          level := IntStatus.IntOff
          readyList := ReadyToRun c s.readyList
          currentThread := none
          threads := setThread s.threads c { pc := next, yielded := some s.level } } := by
  unfold Yield
  cases s.readyList <;> simp

/-- Invariance under a transition of thread `c` that changes neither the value of
the lock's semaphore, nor the owner, nor `someInt`. -/
theorem Inv.frame {s s1 : State} (c : Tid) (hI : Inv s)
    (hv : s1.lock.sem.value = s.lock.sem.value)
    (ho : s1.lock.ownerThread = s.lock.ownerThread)
    (hn : s1.someInt = s.someInt)
    (hoth : ∀ t, t ≠ c → (s1.threads t).pc = (s.threads t).pc ∨
      (s1.threads t).pc = PC.Acquire_P Caller.test)
    (hpend : (s1.threads c).pc.pending = true → (s.threads c).pc.pending = true)
    (hown : (s1.threads c).pc.mustOwn = true → s.lock.ownerThread = some c)
    (hz : (s1.threads c).pc.sawZero = true → s.someInt = 0)
    (hp : (s1.threads c).pc.pastIncr = true → s.someInt = 1) : Inv s1 := by
  have key : ∀ t (f : PC → Bool), f (PC.Acquire_P Caller.test) = false → t ≠ c →
      f (s1.threads t).pc = true → f (s.threads t).pc = true := by
    intro t f hf htc h
    rcases hoth t htc with h1 | h1
    · rw [← h1]; exact h
    · rw [h1, hf] at h; exact absurd h (by simp)
  have kp : ∀ t, (s1.threads t).pc.pending = true → (s.threads t).pc.pending = true := by
    intro t h
    by_cases htc : t = c
    · subst htc; exact hpend h
    · exact key t PC.pending rfl htc h
  refine ⟨by rw [hv]; exact hI.value01, ?_, ?_, ?_, ?_, by rw [hn]; exact hI.someInt01, ?_, ?_⟩
  · intro t ht; rw [hv]; rw [ho] at ht; exact hI.owner_value t ht
  · intro t ht; rw [hv, ho]; exact hI.pending_value t (kp t ht)
  · intro t u ht hu; exact hI.pending_unique t u (kp t ht) (kp u hu)
  · intro t ht
    rw [ho]
    by_cases htc : t = c
    · subst htc; exact hown ht
    · exact hI.own t (key t PC.mustOwn rfl htc ht)
  · intro t ht
    rw [hn]
    by_cases htc : t = c
    · subst htc; exact hz ht
    · exact hI.sawZero t (key t PC.sawZero rfl htc ht)
  · intro t ht
    rw [hn]
    by_cases htc : t = c
    · subst htc; exact hp ht
    · exact hI.pastIncr t (key t PC.pastIncr rfl htc ht)

/-- Reading the thread table at the updated thread. -/
theorem setThread_pc_self (f : Tid → ThreadCtl) (c : Tid) (v : ThreadCtl) :
    (setThread f c v c) = v := by
  simp [setThread]

/-- Invariance when thread `c` finds the lock's semaphore non-zero in `P` and
decrements it. -/
theorem Inv.takePermit {s s1 : State} (c : Tid) (hI : Inv s) (hne : s.lock.sem.value ≠ 0)
    (hv : s1.lock.sem.value = wrap32 (s.lock.sem.value - 1))
    (ho : s1.lock.ownerThread = s.lock.ownerThread)
    (hn : s1.someInt = s.someInt)
    (hoth : ∀ t, t ≠ c → (s1.threads t).pc = (s.threads t).pc)
    (hown : (s1.threads c).pc.mustOwn = false)
    (hz : (s1.threads c).pc.sawZero = false)
    (hp : (s1.threads c).pc.pastIncr = false) : Inv s1 := by
  have v1 : s.lock.sem.value = 1 := by
    rcases hI.value01 with h | h
    · exact absurd h hne
    · exact h
  have onone : s.lock.ownerThread = none := by
    cases h : s.lock.ownerThread with
    | none => rfl
    | some x => exact absurd (hI.owner_value x h) hne
  have nopend : ∀ t, t ≠ c → (s1.threads t).pc.pending = true → False := by
    intro t htc h
    rw [hoth t htc] at h
    exact hne (hI.pending_value t h).1
  have others : ∀ t (f : PC → Bool), f (s1.threads c).pc = false →
      f (s1.threads t).pc = true → t ≠ c ∧ f (s.threads t).pc = true := by
    intro t f hf h
    have htc : t ≠ c := by
      intro e; subst e; rw [hf] at h; exact absurd h (by simp)
    exact ⟨htc, by rw [← hoth t htc]; exact h⟩
  refine ⟨by rw [hv, v1]; simp, ?_, ?_, ?_, ?_, by rw [hn]; exact hI.someInt01, ?_, ?_⟩
  · intro t _; rw [hv, v1]; simp
  · intro t _; rw [hv, v1, ho, onone]; simp
  · intro t u ht hu
    by_cases htc : t = c
    · by_cases huc : u = c
      · rw [htc, huc]
      · exact absurd hu (by intro h; exact nopend u huc h)
    · exact absurd ht (by intro h; exact nopend t htc h)
  · intro t ht
    have h := hI.own t (others t PC.mustOwn hown ht).2
    rw [onone] at h
    exact absurd h (by simp)
  · intro t ht; rw [hn]; exact hI.sawZero t (others t PC.sawZero hz ht).2
  · intro t ht; rw [hn]; exact hI.pastIncr t (others t PC.pastIncr hp ht).2

/-- Invariance under line 120, `ownerThread = currentThread`. -/
theorem Inv.setOwner {s s1 : State} (c : Tid) (hI : Inv s)
    (hc : (s.threads c).pc.pending = true)
    (hv : s1.lock.sem.value = s.lock.sem.value)
    (ho : s1.lock.ownerThread = some c)
    (hn : s1.someInt = s.someInt)
    (hoth : ∀ t, t ≠ c → (s1.threads t).pc = (s.threads t).pc)
    (hpend : (s1.threads c).pc.pending = false)
    (hz : (s1.threads c).pc.sawZero = false)
    (hp : (s1.threads c).pc.pastIncr = false) : Inv s1 := by
  have hc0 := hI.pending_value c hc
  have others : ∀ t (f : PC → Bool), f (s1.threads c).pc = false →
      f (s1.threads t).pc = true → t ≠ c ∧ f (s.threads t).pc = true := by
    intro t f hf h
    have htc : t ≠ c := by
      intro e; subst e; rw [hf] at h; exact absurd h (by simp)
    exact ⟨htc, by rw [← hoth t htc]; exact h⟩
  have nopend : ∀ t, (s1.threads t).pc.pending = true → False := by
    intro t h
    have h2 := others t PC.pending hpend h
    exact h2.1 (hI.pending_unique t c h2.2 hc)
  refine ⟨by rw [hv]; exact hI.value01, ?_, ?_, ?_, ?_, by rw [hn]; exact hI.someInt01, ?_, ?_⟩
  · intro t _; rw [hv]; exact hc0.1
  · intro t ht; exact absurd ht (by intro h; exact nopend t h)
  · intro t u ht _; exact absurd ht (by intro h; exact nopend t h)
  · intro t ht
    by_cases htc : t = c
    · rw [ho, htc]
    · have h := hI.own t (by rw [← hoth t htc]; exact ht)
      rw [hc0.2] at h
      exact absurd h (by simp)
  · intro t ht; rw [hn]; exact hI.sawZero t (others t PC.sawZero hz ht).2
  · intro t ht; rw [hn]; exact hI.pastIncr t (others t PC.pastIncr hp ht).2

/-- Invariance under line 130, `ownerThread = NULL`, executed by the owner. -/
theorem Inv.clearOwner {s s1 : State} (c : Tid) (hI : Inv s)
    (hc : (s.threads c).pc.mustOwn = true)
    (hv : s1.lock.sem.value = s.lock.sem.value)
    (ho : s1.lock.ownerThread = none)
    (hn : s1.someInt = s.someInt)
    (hoth : ∀ t, t ≠ c → (s1.threads t).pc = (s.threads t).pc)
    (hown : (s1.threads c).pc.mustOwn = false)
    (hz : (s1.threads c).pc.sawZero = false)
    (hp : (s1.threads c).pc.pastIncr = true → s.someInt = 1) : Inv s1 := by
  have hc0 := hI.own c hc
  have others : ∀ t (f : PC → Bool), f (s1.threads c).pc = false →
      f (s1.threads t).pc = true → t ≠ c ∧ f (s.threads t).pc = true := by
    intro t f hf h
    have htc : t ≠ c := by
      intro e; subst e; rw [hf] at h; exact absurd h (by simp)
    exact ⟨htc, by rw [← hoth t htc]; exact h⟩
  have nopend : ∀ t, t ≠ c → (s1.threads t).pc.pending = true → False := by
    intro t htc h
    rw [hoth t htc] at h
    have h2 := (hI.pending_value t h).2
    rw [hc0] at h2
    exact absurd h2 (by simp)
  refine ⟨by rw [hv]; exact hI.value01, ?_, ?_, ?_, ?_, by rw [hn]; exact hI.someInt01, ?_, ?_⟩
  · intro t ht; rw [ho] at ht; exact absurd ht (by simp)
  · intro t _; rw [hv, ho]; exact ⟨hI.owner_value c hc0, rfl⟩
  · intro t u ht hu
    by_cases htc : t = c
    · by_cases huc : u = c
      · rw [htc, huc]
      · exact absurd hu (by intro h; exact nopend u huc h)
    · exact absurd ht (by intro h; exact nopend t htc h)
  · intro t ht
    have h2 := others t PC.mustOwn hown ht
    have h3 := hI.own t h2.2
    rw [hc0] at h3
    exact absurd (Option.some.inj h3).symm h2.1
  · intro t ht; rw [hn]; exact hI.sawZero t (others t PC.sawZero hz ht).2
  · intro t ht
    rw [hn]
    by_cases htc : t = c
    · subst htc; exact hp ht
    · exact hI.pastIncr t (by rw [← hoth t htc]; exact ht)

/-- Invariance under the `V` of line 131. -/
theorem Inv.givePermit {s s1 : State} (c : Tid) (hI : Inv s)
    (hc : (s.threads c).pc.pending = true)
    (hv : s1.lock.sem.value = wrap32 (s.lock.sem.value + 1))
    (ho : s1.lock.ownerThread = s.lock.ownerThread)
    (hn : s1.someInt = s.someInt)
    (hoth : ∀ t, t ≠ c → (s1.threads t).pc = (s.threads t).pc)
    (hpend : (s1.threads c).pc.pending = false)
    (hown : (s1.threads c).pc.mustOwn = false)
    (hz : (s1.threads c).pc.sawZero = false)
    (hp : (s1.threads c).pc.pastIncr = true → s.someInt = 1) : Inv s1 := by
  have hc0 := hI.pending_value c hc
  have others : ∀ t (f : PC → Bool), f (s1.threads c).pc = false →
      f (s1.threads t).pc = true → t ≠ c ∧ f (s.threads t).pc = true := by
    intro t f hf h
    have htc : t ≠ c := by
      intro e; subst e; rw [hf] at h; exact absurd h (by simp)
    exact ⟨htc, by rw [← hoth t htc]; exact h⟩
  have nopend : ∀ t, (s1.threads t).pc.pending = true → False := by
    intro t h
    have h2 := others t PC.pending hpend h
    exact h2.1 (hI.pending_unique t c h2.2 hc)
  refine ⟨by rw [hv, hc0.1]; simp, ?_, ?_, ?_, ?_, by rw [hn]; exact hI.someInt01, ?_, ?_⟩
  · intro t ht; rw [ho, hc0.2] at ht; exact absurd ht (by simp)
  · intro t ht; exact absurd ht (by intro h; exact nopend t h)
  · intro t u ht _; exact absurd ht (by intro h; exact nopend t h)
  · intro t ht
    have h3 := hI.own t (others t PC.mustOwn hown ht).2
    rw [hc0.2] at h3
    exact absurd h3 (by simp)
  · intro t ht; rw [hn]; exact hI.sawZero t (others t PC.sawZero hz ht).2
  · intro t ht
    rw [hn]
    by_cases htc : t = c
    · subst htc; exact hp ht
    · exact hI.pastIncr t (by rw [← hoth t htc]; exact ht)

/-- The points between the test and the increment lie inside the critical section. -/
theorem PC.sawZero_mustOwn (pc : PC) (h : pc.sawZero = true) : pc.mustOwn = true := by
  cases pc <;> simp_all [PC.sawZero, PC.mustOwn]

/-- Invariance under line 58, `someInt++`. -/
theorem Inv.increment {s s1 : State} (c : Tid) (hI : Inv s)
    (hc : (s.threads c).pc.sawZero = true)
    (hv : s1.lock.sem.value = s.lock.sem.value)
    (ho : s1.lock.ownerThread = s.lock.ownerThread)
    (hn : s1.someInt = wrap32 (s.someInt + 1))
    (hoth : ∀ t, t ≠ c → (s1.threads t).pc = (s.threads t).pc)
    (hpend : (s1.threads c).pc.pending = false)
    (hz : (s1.threads c).pc.sawZero = false) : Inv s1 := by
  have hn0 := hI.sawZero c hc
  have hc0 := hI.own c (PC.sawZero_mustOwn _ hc)
  have others : ∀ t (f : PC → Bool), f (s1.threads c).pc = false →
      f (s1.threads t).pc = true → t ≠ c ∧ f (s.threads t).pc = true := by
    intro t f hf h
    have htc : t ≠ c := by
      intro e; subst e; rw [hf] at h; exact absurd h (by simp)
    exact ⟨htc, by rw [← hoth t htc]; exact h⟩
  refine ⟨by rw [hv]; exact hI.value01, ?_, ?_, ?_, ?_, by rw [hn, hn0]; simp, ?_, ?_⟩
  · intro t ht; rw [hv]; rw [ho] at ht; exact hI.owner_value t ht
  · intro t ht; rw [hv, ho]; exact hI.pending_value t (others t PC.pending hpend ht).2
  · intro t u ht hu
    exact hI.pending_unique t u (others t PC.pending hpend ht).2 (others u PC.pending hpend hu).2
  · intro t ht
    rw [ho]
    by_cases htc : t = c
    · rw [htc]; exact hc0
    · exact hI.own t (by rw [← hoth t htc]; exact ht)
  · intro t ht
    have h2 := others t PC.sawZero hz ht
    have h3 := hI.own t (PC.sawZero_mustOwn _ h2.2)
    rw [hc0] at h3
    exact absurd (Option.some.inj h3).symm h2.1
  · intro t _; rw [hn, hn0]; simp

/-- Every transition of a running thread preserves the invariant. -/
theorem inv_runPC (s : State) (c : Tid) (hI : Inv s) : Inv (runPC c (s.threads c).pc s) := by
  have c3 := hI.pending_value c
  have c5 := hI.own c
  have c6 := hI.someInt01
  have c7 := hI.sawZero c
  have c8 := hI.pastIncr c
  generalize hpc : (s.threads c).pc = pc at c3 c5 c7 c8 ⊢
  cases pc
  case Acquire_P cl =>
    simp only [runPC, runP_eq, getSem, setSem, goto, Sleep]
    split_ifs with hv0
    · refine Inv.frame c hI rfl rfl rfl ?_ ?_ ?_ ?_ ?_
      · intro t ht; simp [setThread, ht]
      all_goals simp [setThread_pc_self, PC.pending, PC.mustOwn, PC.sawZero, PC.pastIncr]
    · refine Inv.takePermit c hI hv0 rfl rfl rfl ?_ ?_ ?_ ?_
      · intro t ht; simp [setThread, ht]
      all_goals simp [setThread_pc_self, PC.pending, PC.mustOwn, PC.sawZero, PC.pastIncr]
  case Acquire_P_loop cl old =>
    simp only [runPC, runP_eq, getSem, setSem, goto, Sleep]
    split_ifs with hv0
    · refine Inv.frame c hI rfl rfl rfl ?_ ?_ ?_ ?_ ?_
      · intro t ht; simp [setThread, ht]
      all_goals simp [setThread_pc_self, PC.pending, PC.mustOwn, PC.sawZero, PC.pastIncr]
    · refine Inv.takePermit c hI hv0 rfl rfl rfl ?_ ?_ ?_ ?_
      · intro t ht; simp [setThread, ht]
      all_goals simp [setThread_pc_self, PC.pending, PC.mustOwn, PC.sawZero, PC.pastIncr]
  case Acquire_setOwner cl =>
    simp only [runPC, goto]
    refine Inv.setOwner c hI (by rw [hpc]; rfl) rfl rfl rfl ?_ ?_ ?_ ?_
    · intro t ht; simp [setThread, ht]
    all_goals cases cl <;>
      simp [setThread_pc_self, Caller.afterAcquire, PC.pending, PC.mustOwn, PC.sawZero, PC.pastIncr]
  case Release_clear cl =>
    simp only [runPC, goto]
    refine Inv.clearOwner c hI (by rw [hpc]; rfl) rfl rfl rfl ?_ ?_ ?_ ?_
    · intro t ht; simp [setThread, ht]
    all_goals cases cl <;>
      simp_all [setThread_pc_self, PC.pending, PC.mustOwn, PC.sawZero, PC.pastIncr]
  case Release_V cl =>
    simp only [runPC, runV, Semaphore.V, getSem, setSem, goto]
    refine Inv.givePermit c hI (by rw [hpc]; rfl) rfl rfl rfl ?_ ?_ ?_ ?_ ?_
    · intro t ht; simp [setThread, ht]
    all_goals cases cl <;>
      simp_all [setThread_pc_self, Caller.afterRelease, PC.pending, PC.mustOwn, PC.sawZero,
        PC.pastIncr]
  case LT_incr =>
    simp only [runPC, goto]
    refine Inv.increment c hI (by rw [hpc]; rfl) rfl rfl rfl ?_ ?_ ?_
    · intro t ht; simp [setThread, ht]
    all_goals simp [setThread_pc_self, PC.pending, PC.sawZero]
  all_goals
    (try cases_type* Caller) <;>
    simp only [runPC, runP_eq, runV, Semaphore.V, getSem, setSem, goto, Sleep, ASSERT, Finish, Fork,
      Yield_eq, Lock.isHeldByCurrentThread, Caller.afterAcquire, Caller.afterRelease] <;>
    (try split_ifs) <;>
    (refine Inv.frame c hI rfl rfl rfl ?_ ?_ ?_ ?_ ?_
     · intro t ht
       first
         | exact Or.inl rfl
         | (simp only [setThread]; split_ifs <;> simp_all)
     · simp [setThread_pc_self, hpc, PC.pending]
     · simp_all [setThread_pc_self, PC.mustOwn]
     · simp_all [setThread_pc_self, PC.sawZero]
     · simp_all [setThread_pc_self, PC.pastIncr]
       try omega)

/-- Effect of one event on the value of the client semaphore: a completed `V` is
`value++`, a returning `P` is `value--`, both on a 32-bit `int`; every other event
leaves the value as it is. -/
theorem step_sem_value (e : Event) (s s1 : State) (h : step e s = some s1) :
    s1.sem.value =
      if completesV s e then wrap32 (s.sem.value + 1)
      else if returnsP s e then wrap32 (s.sem.value - 1)
      else s.sem.value := by
  unfold step at h
  split at h
  · exact absurd h (by simp)
  · split at h
    · split at h <;> simp at h
      subst h; simp [completesV, returnsP]
    · simp at h
    · simp at h
    · rename_i c hc
      split at h
      · rename_i old hy
        simp at h; subst h; simp [completesV, returnsP, hy, hc, goto]
      · rename_i hy
        simp at h; subst h
        generalize hpc : (s.threads c).pc = pc
        cases pc <;> simp [completesV, returnsP, hy, hc, hpc, runPC, runP_eq, runV, goto, Sleep, ASSERT, Finish, Fork, Yield_eq, getSem, setSem, Semaphore.V] <;> (try split_ifs) <;> simp_all
    · rename_i c hc
      split at h <;> simp at h
      subst h; simp [completesV, returnsP, hc, Yield_eq]; split_ifs <;> simp [goto]
    · rename_i c hc
      split at h <;> simp at h
      subst h; simp [completesV, returnsP, hc, goto]
    · rename_i c hc
      split at h <;> simp at h
      subst h; simp [completesV, returnsP, hc]

/-- No event both completes a `V` and makes a `P` return. -/
theorem completesV_not_returnsP (s : State) (e : Event) (h : completesV s e = true) :
    returnsP s e = false := by
  unfold completesV at h
  unfold returnsP
  split at h
  · rename_i c hc
    simp only [Bool.and_eq_true, beq_iff_eq] at h
    simp [hc, h.2]
  · exact absurd h (by simp)

/-- A returning `P` found the value different from 0. -/
theorem returnsP_value_ne (s : State) (e : Event) (h : returnsP s e = true) :
    s.sem.value ≠ 0 := by
  unfold returnsP at h
  split at h
  · simp only [Bool.and_eq_true, bne_iff_ne] at h
    exact h.1.2
  · exact absurd h (by simp)

/-- The value of the client semaphore stays within the range of an `int`,
`-2147483648 .. 2147483647`, over every run started within it. -/
theorem exec_sem_range (es : List Event) : ∀ (s s1 : State),
    -2147483648 ≤ s.sem.value ∧ s.sem.value ≤ 2147483647 →
    exec s es = some s1 → -2147483648 ≤ s1.sem.value ∧ s1.sem.value ≤ 2147483647 := by
  induction es with
  | nil => intro s s1 hr h; simp [exec] at h; subst h; exact hr
  | cons e es ih =>
    intro s s1 hr h
    simp only [exec] at h
    cases hs : step e s with
    | none => simp [hs] at h
    | some s2 =>
      simp [hs] at h
      refine ih s2 s1 ?_ h
      rw [step_sem_value e s s2 hs]
      split_ifs
      · exact wrap32_range _
      · exact wrap32_range _
      · exact hr

/-- Effect of a run on the value of the client semaphore, started at a value that
is not negative, as long as the value started from plus the number of `V` completed
in the run does not exceed `INT_MAX = 2147483647`: no `value++` overflows, the
value is the balance of the completed `V` and the returned `P`, and it is not
negative. -/
theorem exec_sem_value (es : List Event) : ∀ (s s1 : State), 0 ≤ s.sem.value →
    s.sem.value + (countOf completesV s es : Int) ≤ 2147483647 →
    exec s es = some s1 →
    s1.sem.value = s.sem.value + countOf completesV s es - countOf returnsP s es ∧
      0 ≤ s1.sem.value := by
  induction es with
  | nil => intro s s1 h0 _ h; simp [exec] at h; subst h; simp [countOf, h0]
  | cons e es ih =>
    intro s s1 h0 hb h
    simp only [exec] at h
    cases hs : step e s with
    | none => simp [hs] at h
    | some s2 =>
      simp [hs] at h
      have h2 := step_sem_value e s s2 hs
      simp only [countOf, hs] at hb ⊢
      push_cast at hb ⊢
      have hcv : 0 ≤ (countOf completesV s2 es : Int) := Int.natCast_nonneg _
      by_cases hV : completesV s e = true
      · have hP := completesV_not_returnsP s e hV
        simp only [hV, if_true] at h2 hb
        rw [wrap32_of_range _ (by omega) (by omega)] at h2
        have := ih s2 s1 (by omega) (by omega) h
        simp only [hV, hP, if_true]
        constructor
        · rw [this.1, h2]; simp; ring
        · exact this.2
      · by_cases hP : returnsP s e = true
        · have hne := returnsP_value_ne s e hP
          simp only [hV, hP, if_true] at h2 hb
          simp only [Bool.false_eq_true, if_false] at h2 hb
          rw [wrap32_of_range _ (by omega) (by omega)] at h2
          have := ih s2 s1 (by omega) (by omega) h
          simp only [hV, hP, if_true]
          constructor
          · rw [this.1, h2]; simp; ring
          · exact this.2
        · simp only [hV, hP] at h2 hb
          simp only [Bool.false_eq_true, if_false] at h2 hb
          have := ih s2 s1 (by omega) (by omega) h
          simp only [hV, hP]
          constructor
          · rw [this.1, h2]; simp
          · exact this.2

/-- The loop of `Broadcast` entered with a removed thread `t` readies `t` and the
whole remaining queue, in order. -/
theorem BroadcastLoop_spec (q : WaitQueue) : ∀ (readyList : List Tid) (t : Tid),
    Condition.BroadcastLoop readyList (some t) q = ([], readyList ++ t :: q) := by
  induction q with
  | nil => intro r t; simp [Condition.BroadcastLoop, ReadyToRun]
  | cons u q ih => intro r t; simp [Condition.BroadcastLoop, ReadyToRun, ih]

/-- The atomic section of `Broadcast` empties the queue into the ready list. -/
theorem Broadcast_spec (q : WaitQueue) (readyList : List Tid) :
    Condition.Broadcast { waitingThreads := q } readyList
      = ({ waitingThreads := [] }, readyList ++ q) := by
  cases q with
  | nil => simp [Condition.Broadcast, WaitQueue.Remove, Condition.BroadcastLoop]
  | cons t q => simp [Condition.Broadcast, WaitQueue.Remove, BroadcastLoop_spec]

/-- Case analysis of an enabled event. -/
theorem step_cases (e : Event) (s s1 : State) (h : step e s = some s1) :
    s.aborted = false ∧
    ((∃ t, e = Event.dispatch t ∧ s.currentThread = none ∧ t ∈ s.readyList ∧
        s1 = { s with currentThread := some t, readyList := s.readyList.erase t }) ∨
     (∃ c old, e = Event.run ∧ s.currentThread = some c ∧ (s.threads c).yielded = some old ∧
        s1 = { goto c (s.threads c).pc s with level := old }) ∨
     (∃ c, e = Event.run ∧ s.currentThread = some c ∧ (s.threads c).yielded = none ∧
        s1 = runPC c (s.threads c).pc s) ∨
     (∃ c, e = Event.timer ∧ s.currentThread = some c ∧ s.level = IntStatus.IntOn ∧
        (s.threads c).yielded = none ∧ s1 = Yield c (s.threads c).pc s) ∨
     (∃ c op, e = Event.call op ∧ s.currentThread = some c ∧ (s.threads c).yielded = none ∧
        (s.threads c).pc = PC.client ∧ s1 = goto c op.entry s) ∨
     (∃ c l, e = Event.setLevel l ∧ s.currentThread = some c ∧ (s.threads c).yielded = none ∧
        (s.threads c).pc = PC.client ∧ s1 = { s with level := l })) := by
  unfold step at h
  split at h
  · exact absurd h (by simp)
  · rename_i hab
    refine ⟨by simpa using hab, ?_⟩
    split at h
    · split at h <;> simp at h
      rename_i t hcur hmem
      exact Or.inl ⟨t, rfl, hcur, hmem, h.symm⟩
    · simp at h
    · simp at h
    · rename_i c hc
      split at h
      · rename_i old hy
        simp at h
        exact Or.inr (Or.inl ⟨c, old, rfl, hc, hy, h.symm⟩)
      · rename_i hy
        simp at h
        exact Or.inr (Or.inr (Or.inl ⟨c, rfl, hc, hy, h.symm⟩))
    · rename_i c hc
      split at h <;> simp at h
      rename_i hcond
      exact Or.inr (Or.inr (Or.inr (Or.inl ⟨c, rfl, hc, hcond.1, hcond.2, h.symm⟩)))
    · rename_i op c hc
      split at h <;> simp at h
      rename_i hcond
      exact Or.inr (Or.inr (Or.inr (Or.inr (Or.inl ⟨c, op, rfl, hc, hcond.1, hcond.2, h.symm⟩))))
    · rename_i l c hc
      split at h <;> simp at h
      rename_i hcond
      exact Or.inr (Or.inr (Or.inr (Or.inr (Or.inr ⟨c, l, rfl, hc, hcond.1, hcond.2, h.symm⟩))))

/-- Every event preserves the invariant. -/
theorem inv_step (e : Event) (s s1 : State) (hI : Inv s) (h : step e s = some s1) : Inv s1 := by
  obtain ⟨_, h | h | h | h | h | h⟩ := step_cases e s s1 h
  · obtain ⟨t, _, _, _, rfl⟩ := h
    exact ⟨hI.1, hI.2, hI.3, hI.4, hI.5, hI.6, hI.7, hI.8⟩
  · obtain ⟨c, old, _, _, _, rfl⟩ := h
    refine Inv.frame c hI rfl rfl rfl ?_ ?_ ?_ ?_ ?_
    · intro t ht; simp [goto, setThread, ht]
    · simp [goto, setThread_pc_self]
    · simpa [goto, setThread_pc_self] using hI.own c
    · simpa [goto, setThread_pc_self] using hI.sawZero c
    · simpa [goto, setThread_pc_self] using hI.pastIncr c
  · obtain ⟨c, _, _, _, rfl⟩ := h
    exact inv_runPC s c hI
  · obtain ⟨c, _, _, _, _, rfl⟩ := h
    rw [Yield_eq]
    split_ifs
    all_goals
      refine Inv.frame c hI rfl rfl rfl ?_ ?_ ?_ ?_ ?_
      · intro t ht; simp [goto, setThread, ht]
      · simp [goto, setThread_pc_self]
      · simpa [goto, setThread_pc_self] using hI.own c
      · simpa [goto, setThread_pc_self] using hI.sawZero c
      · simpa [goto, setThread_pc_self] using hI.pastIncr c
  · obtain ⟨c, op, _, _, _, _, rfl⟩ := h
    refine Inv.frame c hI rfl rfl rfl ?_ ?_ ?_ ?_ ?_
    · intro t ht; simp [goto, setThread, ht]
    all_goals cases op <;>
      simp [goto, setThread_pc_self, Op.entry, PC.pending, PC.mustOwn, PC.sawZero, PC.pastIncr]
  · obtain ⟨c, l, _, _, _, _, rfl⟩ := h
    exact ⟨hI.1, hI.2, hI.3, hI.4, hI.5, hI.6, hI.7, hI.8⟩

/-- Every run preserves the invariant. -/
theorem inv_exec (es : List Event) : ∀ (s s1 : State), Inv s → exec s es = some s1 → Inv s1 := by
  induction es with
  | nil => intro s s1 hI h; simp [exec] at h; subst h; exact hI
  | cons e es ih =>
    intro s s1 hI h
    simp only [exec] at h
    cases hs : step e s with
    | none => simp [hs] at h
    | some s2 =>
      simp [hs] at h
      exact ih s2 s1 (inv_step e s s2 hI hs) h

/-- At a start point a thread holds nothing. -/
theorem PC.isStart_neutral (pc : PC) (h : pc.isStart = true) :
    pc.pending = false ∧ pc.mustOwn = false ∧ pc.sawZero = false ∧ pc.pastIncr = false := by
  cases pc <;> (try cases_type* Caller) <;>
    simp_all [PC.isStart, PC.pending, PC.mustOwn, PC.sawZero, PC.pastIncr]

/-- Initial states satisfy the invariant. -/
theorem inv_initial (s : State) (h : Initial s) : Inv s := by
  obtain ⟨hl, hn, hp⟩ := h
  refine ⟨by simp [hl, Lock.new, Semaphore.new], ?_, ?_, ?_, ?_, Or.inl hn, ?_, ?_⟩
  · intro t ht; simp [hl, Lock.new] at ht
  · intro t ht; rw [(PC.isStart_neutral _ (hp t)).1] at ht; exact absurd ht (by simp)
  · intro t u ht; rw [(PC.isStart_neutral _ (hp t)).1] at ht; exact absurd ht (by simp)
  · intro t ht; rw [(PC.isStart_neutral _ (hp t)).2.1] at ht; exact absurd ht (by simp)
  · intro t ht; rw [(PC.isStart_neutral _ (hp t)).2.2.1] at ht; exact absurd ht (by simp)
  · intro t ht; rw [(PC.isStart_neutral _ (hp t)).2.2.2] at ht; exact absurd ht (by simp)

/-- The invariant holds in every state reachable from an initial state. -/
theorem inv_reachable (s0 s : State) (es : List Event) (h0 : Initial s0)
    (h : exec s0 es = some s) : Inv s :=
  inv_exec es s0 s (inv_initial s0 h0) h

/-- The state `initState` is initial. -/
theorem initial_initState (c0 : Int) (main : Tid) (others : List Tid) :
    Initial (initState c0 main others) := by
  refine ⟨rfl, rfl, ?_⟩
  intro t
  simp only [initState]
  split_ifs <;> rfl

/-- The state `threadTestInit` is initial. -/
theorem initial_threadTestInit (n : Nat) : Initial (threadTestInit n) := by
  refine ⟨rfl, rfl, ?_⟩
  intro t
  simp only [threadTestInit]
  split_ifs <;> rfl

/-- On a machine running only the test, a transition of a thread keeps every thread
inside the test and fails no assertion. -/
theorem testInv_runPC (s : State) (c : Tid) (hT : TestInv s) :
    TestInv (runPC c (s.threads c).pc s) := by
  obtain ⟨hI, hP, hA⟩ := hT
  refine ⟨inv_runPC s c hI, ?_, ?_⟩
  · have c0 := hP c
    have c5 := hI.own c
    have c8 := hI.pastIncr c
    generalize hpc : (s.threads c).pc = pc at c0 c5 c8 ⊢
    intro t
    have ht := hP t
    cases pc <;> (try cases_type* Caller) <;> (try simp [PC.inTest] at c0 ; done) <;>
      simp only [runPC, runP_eq, runV, Semaphore.V, getSem, setSem, goto, Sleep, ASSERT, Finish,
        Fork, Yield_eq, Caller.afterAcquire, Caller.afterRelease] <;>
      (try split_ifs) <;>
      (try simp only [setThread]) <;> (try split_ifs) <;> first | exact ht | rfl
  · have c0 := hP c
    have c5 := hI.own c
    have c8 := hI.pastIncr c
    generalize hpc : (s.threads c).pc = pc at c0 c5 c8 ⊢
    cases pc <;> (try cases_type* Caller) <;> (try simp [PC.inTest] at c0 ; done) <;>
      simp only [runPC, runP_eq, runV, Semaphore.V, getSem, setSem, goto, Sleep, ASSERT, Finish,
        Fork, Yield_eq, Caller.afterAcquire, Caller.afterRelease] <;>
      (try split_ifs) <;>
      simp_all [PC.mustOwn, PC.pastIncr]

/-- Every event preserves the invariant of the test. -/
theorem testInv_step (e : Event) (s s1 : State) (hT : TestInv s) (h : step e s = some s1) :
    TestInv s1 := by
  obtain ⟨_, h | h | h | h | h | h⟩ := step_cases e s s1 h
  · obtain ⟨t, _, _, _, rfl⟩ := h
    exact ⟨inv_step _ _ _ hT.inv ‹_›, hT.inTest, hT.running⟩
  · obtain ⟨c, old, _, _, _, rfl⟩ := h
    refine ⟨inv_step _ _ _ hT.inv ‹_›, ?_, hT.running⟩
    intro t
    have := hT.inTest t
    simp only [goto, setThread]
    split_ifs with htc
    · subst htc; exact this
    · exact this
  · obtain ⟨c, _, _, _, rfl⟩ := h
    exact testInv_runPC s c hT
  · obtain ⟨c, _, _, _, _, rfl⟩ := h
    refine ⟨inv_step _ _ _ hT.inv ‹_›, ?_, ?_⟩
    · intro t
      have := hT.inTest t
      rw [Yield_eq]
      split_ifs <;> simp only [goto, setThread] <;> split_ifs with htc
      · subst htc; exact this
      · exact this
      · subst htc; exact this
      · exact this
    · rw [Yield_eq]; split_ifs <;> exact hT.running
  · obtain ⟨c, op, _, _, _, hpc, rfl⟩ := h
    have := hT.inTest c
    rw [hpc] at this
    exact absurd this (by simp [PC.inTest])
  · obtain ⟨c, l, _, _, _, hpc, rfl⟩ := h
    have := hT.inTest c
    rw [hpc] at this
    exact absurd this (by simp [PC.inTest])

/-- Every run preserves the invariant of the test. -/
theorem testInv_exec (es : List Event) :
    ∀ (s s1 : State), TestInv s → exec s es = some s1 → TestInv s1 := by
  induction es with
  | nil => intro s s1 hI h; simp [exec] at h; subst h; exact hI
  | cons e es ih =>
    intro s s1 hI h
    simp only [exec] at h
    cases hs : step e s with
    | none => simp [hs] at h
    | some s2 =>
      simp [hs] at h
      exact ih s2 s1 (testInv_step e s s2 hI hs) h

/-- The start of `ThreadTest` satisfies the invariant of the test. -/
theorem testInv_threadTestInit (n : Nat) : TestInv (threadTestInit n) := by
  refine ⟨inv_initial _ (initial_threadTestInit n), ?_, rfl⟩
  intro t
  simp only [threadTestInit]
  split_ifs <;> rfl

/-! ## The claims -/

/-- A thread inside the critical section of `LockingTest` is the owner. -/
theorem PC.inCritical_mustOwn (pc : PC) (h : pc.inCritical = true) : pc.mustOwn = true := by
  cases pc <;> (try cases_type* Caller) <;> simp_all [PC.inCritical, PC.mustOwn]

/-- Claim C2: in every state reachable from the start of `ThreadTest` with any
number `n` of `LockingTest` threads, under every interleaving, no assertion has
failed, every thread standing at `ASSERT(someInt == 1)` finds `someInt = 1`, and
at most one thread is inside the section between `Acquire` and `Release`. -/
theorem C2_lockingTest_assertion_holds (n : Nat) (es : List Event) (s : State)
    (h : exec (threadTestInit n) es = some s) :
    s.aborted = false ∧
    (∀ t, (s.threads t).pc = PC.LT_assert →
      s.someInt = 1 ∧ (runPC t PC.LT_assert s).aborted = false) ∧
    (∀ t u, (s.threads t).pc.inCritical = true → (s.threads u).pc.inCritical = true → t = u) := by
  have hT := testInv_exec es _ s (testInv_threadTestInit n) h
  refine ⟨hT.running, ?_, ?_⟩
  · intro t ht
    have h1 : s.someInt = 1 := hT.inv.pastIncr t (by rw [ht]; rfl)
    refine ⟨h1, ?_⟩
    simp [runPC, ASSERT, h1, Finish, Sleep, goto, hT.running]
  · intro t u ht hu
    have h1 := hT.inv.own t (PC.inCritical_mustOwn _ ht)
    have h2 := hT.inv.own u (PC.inCritical_mustOwn _ hu)
    rw [h1] at h2
    exact Option.some.inj h2

/-- Witness of C2: the run `traceLockingTest` with two threads, which brings thread 1
to the assertion while thread 2 is blocked in `Acquire`. -/
theorem C2_lockingTest_assertion_holds_witness :
    ∃ s, exec (threadTestInit 2) traceLockingTest = some s ∧
      (s.threads 1).pc = PC.LT_assert ∧
      (s.threads 2).pc = PC.Acquire_P_loop Caller.test IntStatus.IntOn ∧
      s.aborted = false ∧
      (∀ t, (s.threads t).pc = PC.LT_assert →
        s.someInt = 1 ∧ (runPC t PC.LT_assert s).aborted = false) ∧
      (∀ t u, (s.threads t).pc.inCritical = true → (s.threads u).pc.inCritical = true → t = u) :=
  ⟨_, rfl, by decide, by decide, C2_lockingTest_assertion_holds 2 traceLockingTest _ rfl⟩

/-- Claim C3: in every state reachable under any interleaving, at most one thread
gets `true` from `isHeldByCurrentThread()`; while there is one, the lock's semaphore
has value 0 and no other thread is between `P` and `V` on it. -/
theorem C3_single_holder (s0 s : State) (es : List Event) (h0 : Initial s0)
    (h : exec s0 es = some s) (t u : Tid)
    (ht : s.lock.isHeldByCurrentThread t = true) (hu : s.lock.isHeldByCurrentThread u = true) :
    t = u ∧ s.lock.sem.value = 0 ∧ ∀ v, (s.threads v).pc.pending = false := by
  have hI := inv_reachable s0 s es h0 h
  simp only [Lock.isHeldByCurrentThread, beq_iff_eq] at ht hu
  refine ⟨?_, hI.owner_value t ht, ?_⟩
  · rw [ht] at hu; exact Option.some.inj hu
  · intro v
    cases hv : (s.threads v).pc.pending with
    | false => rfl
    | true =>
      have := (hI.pending_value v hv).2
      rw [ht] at this
      exact absurd this (by simp)

/-- Witness of C3: thread 0 has acquired the lock. -/
theorem C3_single_holder_witness :
    ∃ s, exec (initState 0 0 [1]) [Event.call Op.Acquire, Event.run, Event.run] = some s ∧
      s.lock.isHeldByCurrentThread 0 = true ∧
      (0 = 0 ∧ s.lock.sem.value = 0 ∧ ∀ v, (s.threads v).pc.pending = false) :=
  ⟨_, rfl, by decide,
    C3_single_holder (initState 0 0 [1]) _ [Event.call Op.Acquire, Event.run, Event.run]
      (initial_initState 0 0 [1]) rfl 0 0
      (by decide) (by decide)⟩

/-- Claim C4: `Lock::Release` by a thread that is not the owner (the owner being
another thread or `NULL`) fails its assertion: the machine aborts with every other
field unchanged (owner, semaphore value and queue, ready list) and no transition is
enabled afterwards.  Called by the owner it passes the assertion, clears the owner
and performs `V`; the two later program points never abort. -/
theorem C4_release_owner_check (s : State) (c : Tid) (cl : Caller)
    (hab : s.aborted = false) (hcur : s.currentThread = some c)
    (hth : s.threads c = { pc := PC.Release_assert cl, yielded := none }) :
    (s.lock.ownerThread ≠ some c →
      step Event.run s = some { s with aborted := true } ∧
      ∀ e, step e { s with aborted := true } = none) ∧
    (s.lock.ownerThread = some c →
      ∃ s1, exec s [Event.run, Event.run, Event.run] = some s1 ∧ s1.aborted = false ∧
        s1.lock.ownerThread = none ∧
        (s1.lock.sem, s1.readyList) = s.lock.sem.V s.readyList ∧
        s1.threads c = { pc := cl.afterRelease, yielded := none }) ∧
    (∀ s2 : State, (runPC c (PC.Release_clear cl) s2).aborted = s2.aborted ∧
      (runPC c (PC.Release_V cl) s2).aborted = s2.aborted) := by
  refine ⟨?_, ?_, ?_⟩
  · intro hne
    simp [step, hab, hcur, hth, runPC, ASSERT, hne]
  · intro ho
    simp [exec, step, hab, hcur, hth, runPC, ASSERT, ho, goto, setThread, runV, getSem, setSem]
  · intro s2
    simp [runPC, goto, runV, getSem, setSem]

/-- Witness of C4: thread 0 releases the new lock without owning it; and thread 0
releases the lock after acquiring it. -/
theorem C4_release_owner_check_witness :
    (∃ s, exec (initState 0 0 [1]) [Event.call Op.Release] = some s ∧
      s.lock.ownerThread = none ∧
      step Event.run s = some { s with aborted := true } ∧
      ∀ e, step e { s with aborted := true } = none) ∧
    (∃ s, exec (initState 0 0 [1])
        [Event.call Op.Acquire, Event.run, Event.run, Event.call Op.Release] = some s ∧
      s.lock.ownerThread = some 0 ∧
      ∃ s1, exec s [Event.run, Event.run, Event.run] = some s1 ∧ s1.aborted = false ∧
        s1.lock.ownerThread = none ∧
        (s1.lock.sem, s1.readyList) = s.lock.sem.V s.readyList ∧
        s1.threads 0 = { pc := PC.client, yielded := none }) :=
  ⟨⟨_, rfl, rfl,
      (C4_release_owner_check _ 0 Caller.client rfl rfl rfl).1 (by decide)⟩,
    ⟨_, rfl, rfl,
      (C4_release_owner_check _ 0 Caller.client rfl rfl rfl).2.1 rfl⟩⟩

/-- Claim C5: the assertion heading `Condition::Wait`, `Signal` and `Broadcast`
aborts when the caller does not hold the lock, leaving every field of the machine
as it was, and aborts only then: with the lock held it passes, no later program
point of the three operations aborts, and the assertion of the `Release` called
by `Wait` passes in every reachable state. -/
theorem C5_condition_needs_lock (s : State) (c : Tid) :
    (s.lock.isHeldByCurrentThread c = false →
      runPC c PC.Wait_assert s = { s with aborted := true } ∧
      runPC c PC.Signal_assert s = { s with aborted := true } ∧
      runPC c PC.Broadcast_assert s = { s with aborted := true }) ∧
    (s.lock.isHeldByCurrentThread c = true →
      runPC c PC.Wait_assert s = goto c (PC.Release_assert Caller.wait) s ∧
      runPC c PC.Signal_assert s = goto c PC.Signal_body s ∧
      runPC c PC.Broadcast_assert s = goto c PC.Broadcast_body s) ∧
    (∀ old : IntStatus,
      (runPC c PC.Signal_body s).aborted = s.aborted ∧
      (runPC c PC.Broadcast_body s).aborted = s.aborted ∧
      (runPC c (PC.Release_clear Caller.wait) s).aborted = s.aborted ∧
      (runPC c (PC.Release_V Caller.wait) s).aborted = s.aborted ∧
      (runPC c PC.Wait_enqueue s).aborted = s.aborted ∧
      (runPC c (PC.Wait_resume old) s).aborted = s.aborted ∧
      (runPC c (PC.Acquire_P Caller.wait) s).aborted = s.aborted ∧
      (runPC c (PC.Acquire_P_loop Caller.wait old) s).aborted = s.aborted ∧
      (runPC c (PC.Acquire_setOwner Caller.wait) s).aborted = s.aborted ∧
      (runPC c PC.Wait_return s).aborted = s.aborted) ∧
    (∀ (s0 : State) (es : List Event), Initial s0 → exec s0 es = some s →
      (s.threads c).pc = PC.Release_assert Caller.wait →
      runPC c (PC.Release_assert Caller.wait) s = goto c (PC.Release_clear Caller.wait) s) := by
  refine ⟨?_, ?_, ?_, ?_⟩
  · intro h
    simp [runPC, ASSERT, h]
  · intro h
    simp [runPC, ASSERT, h]
  · intro old
    refine ⟨?_, ?_, rfl, rfl, rfl, rfl, ?_, ?_, rfl, rfl⟩
    · simp only [runPC, Condition.Signal, goto]
    · rfl
    · simp only [runPC, runP_eq, getSem, setSem, goto, Sleep]
      split_ifs <;> rfl
    · simp only [runPC, runP_eq, getSem, setSem, goto, Sleep]
      split_ifs <;> rfl
  · intro s0 es h0 h hpc
    have hI := inv_reachable s0 s es h0 h
    have := hI.own c (by rw [hpc]; rfl)
    simp [runPC, ASSERT, this]

/-- Witness of C5: thread 0 calls `Signal` on the new, unheld lock; and thread 0,
holding the lock, calls `Wait` and reaches the assertion of `Release`. -/
theorem C5_condition_needs_lock_witness :
    (∃ s, exec (initState 0 0 [1]) [Event.call Op.Signal] = some s ∧
      s.lock.isHeldByCurrentThread 0 = false ∧
      runPC 0 PC.Wait_assert s = { s with aborted := true } ∧
      runPC 0 PC.Signal_assert s = { s with aborted := true } ∧
      runPC 0 PC.Broadcast_assert s = { s with aborted := true }) ∧
    (∃ s, exec (initState 0 0 [1])
        [Event.call Op.Acquire, Event.run, Event.run, Event.call Op.Wait, Event.run] = some s ∧
      (s.threads 0).pc = PC.Release_assert Caller.wait ∧
      runPC 0 (PC.Release_assert Caller.wait) s = goto 0 (PC.Release_clear Caller.wait) s) :=
  ⟨⟨_, rfl, rfl, (C5_condition_needs_lock _ 0).1 rfl⟩,
    ⟨_, rfl, rfl,
      (C5_condition_needs_lock _ 0).2.2.2 (initState 0 0 [1])
        [Event.call Op.Acquire, Event.run, Event.run, Event.call Op.Wait, Event.run]
        (initial_initState 0 0 [1]) rfl rfl⟩⟩

/-- Claim C6 as stated fails at the counter `INT_MAX = 2147483647`: `value++` on the
32-bit `int` gives `INT_MIN = -2147483648`, not `c + 1`, so `V` lowers the counter,
with an empty queue and with a waiting thread alike, and also on the machine for a
semaphore created with `INT_MAX`. -/
theorem C6_counterexample :
    Semaphore.V { value := 2147483647, queue := [] } []
      = ({ value := -2147483648, queue := [] }, []) ∧
    Semaphore.V { value := 2147483647, queue := [1] } []
      = ({ value := -2147483648, queue := [] }, [1]) ∧
    (Semaphore.V { value := 2147483647, queue := [] } []).1.value ≠ 2147483647 + 1 ∧
    (Semaphore.V { value := 2147483647, queue := [] } []).1.value < 2147483647 ∧
    (∃ s, exec (initState 2147483647 0 []) [Event.call Op.V, Event.run] = some s ∧
      s.sem.value = -2147483648 ∧ (s.threads 0).pc = PC.client ∧ s.aborted = false) := by
  refine ⟨by decide, by decide, by decide, by decide, ⟨_, rfl, ?_⟩⟩
  decide

/-- Claim C6, amended: for every `int` counter `c` below `INT_MAX`, that is
`-2147483648 <= c < 2147483647`, `Semaphore::V` turns value `c` into `c + 1`
whatever the queue; with an empty queue nothing is admitted to the ready list, with
queue `t :: rest` the queue becomes `rest` and exactly `t` is appended to the ready
list.  On the machine, whatever the counter, `V` stores the 32-bit result of
`value + 1`, changes only its semaphore and the ready list, restores the interrupt
level, never aborts, and its transition is enabled whenever its caller is running. -/
theorem C6_V_increments (c : Int) (t : Tid) (rest readyList : List Tid) (s : State) (cur : Tid)
    (r : SemRef) (ret : PC) (hlo : -2147483648 ≤ c) (hhi : c < 2147483647) :
    Semaphore.V { value := c, queue := [] } readyList
      = ({ value := c + 1, queue := [] }, readyList) ∧
    Semaphore.V { value := c, queue := t :: rest } readyList
      = ({ value := c + 1, queue := rest }, readyList ++ [t]) ∧
    (getSem r (runV cur r ret s), (runV cur r ret s).readyList) = (getSem r s).V s.readyList ∧
    (getSem r (runV cur r ret s)).value = wrap32 ((getSem r s).value + 1) ∧
    ((getSem r s).value = c → (getSem r (runV cur r ret s)).value = c + 1) ∧
    (runV cur r ret s).aborted = s.aborted ∧
    (runV cur r ret s).level = s.level ∧
    (runV cur r ret s).cond = s.cond ∧
    (runV cur r ret s).currentThread = s.currentThread ∧
    runPC cur PC.V_entry s = runV cur SemRef.client PC.client s ∧
    runPC cur (PC.Release_V Caller.client) s = runV cur SemRef.ofLock PC.client s ∧
    (s.aborted = false → s.currentThread = some cur →
      s.threads cur = { pc := PC.V_entry, yielded := none } →
      step Event.run s = some (runV cur SemRef.client PC.client s)) := by
  have hw : wrap32 (c + 1) = c + 1 := wrap32_of_range _ (by omega) (by omega)
  refine ⟨?_, ?_, ?_, ?_, ?_, ?_, ?_, ?_, ?_, rfl, rfl, ?_⟩
  · simp [Semaphore.V, WaitQueue.Remove, hw]
  · simp [Semaphore.V, WaitQueue.Remove, ReadyToRun, hw]
  · cases r <;> simp [runV, getSem, setSem, goto, Semaphore.V]
  · cases r <;> simp [runV, getSem, setSem, goto, Semaphore.V]
  · intro hv
    rw [← hw, ← hv]
    cases r <;> simp [runV, getSem, setSem, goto, Semaphore.V]
  · cases r <;> simp [runV, getSem, setSem, goto, Semaphore.V]
  · cases r <;> simp [runV, getSem, setSem, goto, Semaphore.V]
  · cases r <;> simp [runV, getSem, setSem, goto, Semaphore.V]
  · cases r <;> simp [runV, getSem, setSem, goto, Semaphore.V]
  · intro hab hcur hth
    simp [step, hab, hcur, hth, runPC]

/-- Witness of C6, amended: thread 1 is blocked in `P`, thread 0 calls `V`; the value
goes from 0 to 1 and thread 1 is made ready. -/
theorem C6_V_increments_witness :
    ∃ s, exec (initState 0 1 [0])
        [Event.call Op.P, Event.run, Event.dispatch 0, Event.run, Event.call Op.V] = some s ∧
      s.sem = { value := 0, queue := [1] } ∧ s.readyList = [] ∧
      step Event.run s = some (runV 0 SemRef.client PC.client s) ∧
      (runV 0 SemRef.client PC.client s).sem = { value := 1, queue := [] } ∧
      (runV 0 SemRef.client PC.client s).readyList = [1] :=
  ⟨_, rfl, rfl, rfl,
    (C6_V_increments 0 0 [] [] _ 0 SemRef.client PC.client (by decide) (by decide)).2.2.2.2.2.2.2.2.2.2.2
      rfl rfl rfl,
    rfl, rfl⟩

/-- No thread, no transition. -/
theorem runAll_nil (pc : PC) (s : State) : runAll pc [] s = s := rfl

/-- The first thread moves first. -/
theorem runAll_cons (pc : PC) (t : Tid) (ts : List Tid) (s : State) :
    runAll pc (t :: ts) s = runAll pc ts (runPC t pc s) := rfl

/-- Calling `P` on the client semaphore with value 0: the caller is queued and sleeps. -/
theorem runPC_P_entry_zero (s : State) (t : Tid) (h : s.sem.value = 0) :
    runPC t PC.P_entry s =
      { s with
        sem := { value := s.sem.value, queue := s.sem.queue ++ [t] }
        level := IntStatus.IntOff
        currentThread := none
        threads := setThread s.threads t { pc := PC.P_loop s.level, yielded := none } } := by
  simp [runPC, runP_eq, getSem, setSem, goto, Sleep, h, WaitQueue.Append]

/-- Threads calling `P` one after the other on value 0 are queued in call order. -/
theorem runAll_P_blocks (ts : List Tid) : ∀ (s : State), s.sem.value = 0 →
    (runAll PC.P_entry ts s).sem.value = 0 ∧
    (runAll PC.P_entry ts s).sem.queue = s.sem.queue ++ ts ∧
    (runAll PC.P_entry ts s).readyList = s.readyList ∧
    (runAll PC.P_entry ts s).aborted = s.aborted ∧
    (∀ t, (∃ old, (s.threads t).pc = PC.P_loop old) ∨ t ∈ ts →
      ∃ old, ((runAll PC.P_entry ts s).threads t).pc = PC.P_loop old) ∧
    (ts ≠ [] → (runAll PC.P_entry ts s).currentThread = none) := by
  induction ts with
  | nil =>
    intro s h
    refine ⟨h, by simp [runAll_nil], rfl, rfl, ?_, by simp⟩
    intro t ht
    simpa [runAll_nil] using ht
  | cons u ts ih =>
    intro s h
    have hs := runPC_P_entry_zero s u h
    have hv : (runPC u PC.P_entry s).sem.value = 0 := by rw [hs]; exact h
    obtain ⟨i1, i2, i3, i4, i5, i6⟩ := ih (runPC u PC.P_entry s) hv
    rw [runAll_cons]
    refine ⟨i1, ?_, ?_, ?_, ?_, ?_⟩
    · rw [i2, hs]; simp
    · rw [i3, hs]
    · rw [i4, hs]
    · intro t ht
      apply i5
      by_cases htu : t = u
      · left; rw [hs, htu]; exact ⟨s.level, by simp [setThread]⟩
      · rcases ht with ⟨old, ho⟩ | hm
        · left; rw [hs]; exact ⟨old, by simp [setThread, htu, ho]⟩
        · right
          rcases List.mem_cons.mp hm with e | hm2
          · exact absurd e htu
          · exact hm2
    · intro _
      cases ts with
      | nil => rw [runAll_nil, hs]
      | cons v vs => exact i6 (by simp)

/-- Successive calls of `V` ready the queued threads from the head of the queue; as
long as the `int` value does not pass `INT_MAX = 2147483647`, each call adds 1. -/
theorem runAll_V_admits (vs : List Tid) : ∀ (s : State),
    (-2147483648 ≤ s.sem.value → s.sem.value + (vs.length : Int) ≤ 2147483647 →
      (runAll PC.V_entry vs s).sem.value = s.sem.value + vs.length) ∧
    (runAll PC.V_entry vs s).sem.queue = s.sem.queue.drop vs.length ∧
    (runAll PC.V_entry vs s).readyList = s.readyList ++ s.sem.queue.take vs.length := by
  induction vs with
  | nil => intro s; simp [runAll_nil]
  | cons v vs ih =>
    intro s
    obtain ⟨i1, i2, i3⟩ := ih (runPC v PC.V_entry s)
    rw [runAll_cons, i2, i3]
    have hval : (runPC v PC.V_entry s).sem.value = wrap32 (s.sem.value + 1) := by
      simp [runPC, runV, getSem, setSem, goto, Semaphore.V]
    refine ⟨?_, ?_, ?_⟩
    · intro hlo hhi
      simp only [List.length_cons, Nat.cast_add, Nat.cast_one] at hhi ⊢
      have hn : 0 ≤ (vs.length : Int) := Int.natCast_nonneg _
      have hw : wrap32 (s.sem.value + 1) = s.sem.value + 1 :=
        wrap32_of_range _ (by omega) (by omega)
      rw [hw] at hval
      rw [i1 (by omega) (by omega), hval]
      ring
    · cases hq : s.sem.queue with
      | nil =>
        simp [runPC, runV, getSem, setSem, goto, Semaphore.V, WaitQueue.Remove, hq]
      | cons t rest =>
        simp [runPC, runV, getSem, setSem, goto, Semaphore.V, WaitQueue.Remove, hq, ReadyToRun]
    · cases hq : s.sem.queue with
      | nil =>
        simp [runPC, runV, getSem, setSem, goto, Semaphore.V, WaitQueue.Remove, hq]
      | cons t rest =>
        simp [runPC, runV, getSem, setSem, goto, Semaphore.V, WaitQueue.Remove, hq, ReadyToRun]

/-- Effect of one event on the queue of the client semaphore. -/
theorem step_sem_queue (e : Event) (s s1 : State) (h : step e s = some s1) :
    s.sem.queue ++ (appendsP s e).toList = (removesV s e).toList ++ s1.sem.queue := by
  obtain ⟨_, h | h | h | h | h | h⟩ := step_cases e s s1 h
  · obtain ⟨t, rfl, hc, _, rfl⟩ := h
    simp [appendsP, removesV, hc]
  · obtain ⟨c, old, rfl, hc, hy, rfl⟩ := h
    simp [appendsP, removesV, hc, hy, goto]
  · obtain ⟨c, rfl, hc, hy, rfl⟩ := h
    generalize hpc : (s.threads c).pc = pc
    cases pc <;>
      simp [appendsP, removesV, hc, hy, hpc, runPC, runP_eq, runV, goto, Sleep, ASSERT, Finish,
        Fork, Yield_eq, getSem, setSem, Semaphore.V, WaitQueue.Append] <;>
      (try split_ifs) <;> (try simp_all)
    cases hq : s.sem.queue <;> simp [WaitQueue.Remove]
  · obtain ⟨c, rfl, hc, _, _, rfl⟩ := h
    rw [Yield_eq]
    split_ifs <;> simp [appendsP, removesV, hc, goto]
  · obtain ⟨c, op, rfl, hc, _, _, rfl⟩ := h
    simp [appendsP, removesV, hc, goto]
  · obtain ⟨c, l, rfl, hc, _, _, rfl⟩ := h
    simp [appendsP, removesV, hc]

/-- The queue law over a run: the threads queued at the start followed by the
threads appended by `P`, in order, are the threads removed by `V`, in order,
followed by the threads still queued. -/
theorem exec_sem_queue (es : List Event) : ∀ (s s1 : State), exec s es = some s1 →
    s.sem.queue ++ collect appendsP s es = collect removesV s es ++ s1.sem.queue := by
  induction es with
  | nil => intro s s1 h; simp [exec] at h; subst h; simp [collect]
  | cons e es ih =>
    intro s s1 h
    simp only [exec] at h
    cases hs : step e s with
    | none => simp [hs] at h
    | some s2 =>
      simp [hs] at h
      have h1 := ih s2 s1 h
      have h2 := step_sem_queue e s s2 hs
      simp only [collect, hs]
      rw [← List.append_assoc, h2, List.append_assoc, h1, List.append_assoc]

/-- Claim C7: when the threads `ts` call `P` in this order on a semaphore with value
0 and an empty queue, each of them blocks (it is queued, at the loop test of `P`,
and has left the processor) and the queue is `ts`; `k` following calls of `V`, by
any callers `vs`, append to the ready list exactly the first `k` threads of `ts` in
their order and leave the others queued in their order (and the `int` value is `k`,
for `k` up to `INT_MAX = 2147483647`).  Over every run of the
machine from an empty queue, the threads appended by `P`, in order, are the threads
removed by `V`, in order, followed by the threads still queued. -/
theorem C7_fifo_wakeup (s : State) (ts vs : List Tid)
    (hv : s.sem.value = 0) (hq : s.sem.queue = []) :
    (runAll PC.P_entry ts s).sem.queue = ts ∧
    (runAll PC.P_entry ts s).sem.value = 0 ∧
    (runAll PC.P_entry ts s).readyList = s.readyList ∧
    (∀ t ∈ ts, ∃ old, ((runAll PC.P_entry ts s).threads t).pc = PC.P_loop old) ∧
    (ts ≠ [] → (runAll PC.P_entry ts s).currentThread = none) ∧
    (runAll PC.V_entry vs (runAll PC.P_entry ts s)).readyList
      = s.readyList ++ ts.take vs.length ∧
    (runAll PC.V_entry vs (runAll PC.P_entry ts s)).sem.queue = ts.drop vs.length ∧
    ((vs.length : Int) ≤ 2147483647 →
      (runAll PC.V_entry vs (runAll PC.P_entry ts s)).sem.value = vs.length) ∧
    (∀ (s1 : State) (es : List Event), exec s es = some s1 →
      collect appendsP s es = collect removesV s es ++ s1.sem.queue) := by
  obtain ⟨p1, p2, p3, _, p5, p6⟩ := runAll_P_blocks ts s hv
  obtain ⟨v1, v2, v3⟩ := runAll_V_admits vs (runAll PC.P_entry ts s)
  rw [hq] at p2
  simp only [List.nil_append] at p2
  refine ⟨p2, p1, p3, fun t ht => p5 t (Or.inr ht), p6, ?_, ?_, ?_, ?_⟩
  · rw [v3, p2, p3]
  · rw [v2, p2]
  · intro hk
    rw [v1 (by rw [p1]; decide) (by rw [p1]; simpa using hk), p1]; simp
  · intro s1 es h
    have := exec_sem_queue es s s1 h
    rw [hq] at this
    simpa using this

/-- Witness of C7: threads 1, 2, 3 block in this order and thread 0 calls `V` twice,
as transitions of the three threads and as the run `traceFifo` of the machine. -/
theorem C7_fifo_wakeup_witness :
    ((runAll PC.P_entry [1, 2, 3] (initState 0 1 [2, 3, 0])).sem.queue = [1, 2, 3] ∧
      (runAll PC.V_entry [0, 0]
        (runAll PC.P_entry [1, 2, 3] (initState 0 1 [2, 3, 0]))).readyList
        = [2, 3, 0] ++ [1, 2] ∧
      (runAll PC.V_entry [0, 0]
        (runAll PC.P_entry [1, 2, 3] (initState 0 1 [2, 3, 0]))).sem.queue = [3]) ∧
    (∃ s1, exec (initState 0 1 [2, 3, 0]) traceFifo = some s1 ∧
      s1.readyList = [1, 2] ∧ s1.sem.queue = [3] ∧
      collect appendsP (initState 0 1 [2, 3, 0]) traceFifo = [1, 2, 3] ∧
      collect removesV (initState 0 1 [2, 3, 0]) traceFifo = [1, 2] ∧
      collect appendsP (initState 0 1 [2, 3, 0]) traceFifo
        = collect removesV (initState 0 1 [2, 3, 0]) traceFifo ++ s1.sem.queue) :=
  ⟨⟨(C7_fifo_wakeup (initState 0 1 [2, 3, 0]) [1, 2, 3] [0, 0] rfl rfl).1,
      (C7_fifo_wakeup (initState 0 1 [2, 3, 0]) [1, 2, 3] [0, 0] rfl rfl).2.2.2.2.2.1,
      (C7_fifo_wakeup (initState 0 1 [2, 3, 0]) [1, 2, 3] [0, 0] rfl rfl).2.2.2.2.2.2.1⟩,
    ⟨_, rfl, by decide, by decide, by decide, by decide,
      (C7_fifo_wakeup (initState 0 1 [2, 3, 0]) [1, 2, 3] [0, 0] rfl rfl).2.2.2.2.2.2.2.2
        _ traceFifo rfl⟩⟩

/-- Claim C8: `Condition::Signal` called by the holder of the lock passes its
assertion; its atomic section, in whatever state it runs, removes the head `t` of
a queue `t :: rest` and appends exactly `t` to the ready list, changes nothing but
the caller's program point when the queue is empty, never aborts, and leaves the
lock (owner and semaphore) as it was. -/
theorem C8_signal_wakes_head (s : State) (c : Tid)
    (hab : s.aborted = false) (hcur : s.currentThread = some c)
    (hth : s.threads c = { pc := PC.Signal_assert, yielded := none })
    (hheld : s.lock.isHeldByCurrentThread c = true) :
    (∃ s1, exec s [Event.run, Event.run] = some s1 ∧
      s1 = runPC c PC.Signal_body (goto c PC.Signal_body s) ∧
      s1.lock = s.lock ∧ s1.aborted = false ∧ s1.level = s.level ∧
      s1.threads c = { pc := PC.client, yielded := none } ∧
      (s.cond.waitingThreads = [] →
        s1.cond.waitingThreads = [] ∧ s1.readyList = s.readyList) ∧
      (∀ t rest, s.cond.waitingThreads = t :: rest →
        s1.cond.waitingThreads = rest ∧ s1.readyList = s.readyList ++ [t])) ∧
    (∀ s2 : State,
      (runPC c PC.Signal_body s2).lock = s2.lock ∧
      (runPC c PC.Signal_body s2).aborted = s2.aborted ∧
      (runPC c PC.Signal_body s2).level = s2.level ∧
      (runPC c PC.Signal_body s2).sem = s2.sem ∧
      (s2.cond.waitingThreads = [] → runPC c PC.Signal_body s2 = goto c PC.client s2) ∧
      (∀ t rest, s2.cond.waitingThreads = t :: rest →
        (runPC c PC.Signal_body s2).cond.waitingThreads = rest ∧
        (runPC c PC.Signal_body s2).readyList = s2.readyList ++ [t])) := by
  have body : ∀ s2 : State,
      (runPC c PC.Signal_body s2).lock = s2.lock ∧
      (runPC c PC.Signal_body s2).aborted = s2.aborted ∧
      (runPC c PC.Signal_body s2).level = s2.level ∧
      (runPC c PC.Signal_body s2).sem = s2.sem ∧
      (s2.cond.waitingThreads = [] → runPC c PC.Signal_body s2 = goto c PC.client s2) ∧
      (∀ t rest, s2.cond.waitingThreads = t :: rest →
        (runPC c PC.Signal_body s2).cond.waitingThreads = rest ∧
        (runPC c PC.Signal_body s2).readyList = s2.readyList ++ [t]) := by
    intro s2
    refine ⟨rfl, rfl, rfl, rfl, ?_, ?_⟩
    · intro h
      have : s2.cond = { waitingThreads := [] } := by
        cases hc : s2.cond with
        | mk w => rw [hc] at h; simp at h; rw [h]
      simp [runPC, Condition.Signal, WaitQueue.Remove, h, goto, this]
    · intro t rest h
      simp [runPC, Condition.Signal, WaitQueue.Remove, h, goto, ReadyToRun]
  refine ⟨?_, body⟩
  obtain ⟨b1, b2, b3, _, b5, b6⟩ := body (goto c PC.Signal_body s)
  refine ⟨runPC c PC.Signal_body (goto c PC.Signal_body s), ?_, rfl, b1, ?_, b3, ?_, ?_, ?_⟩
  · simp [exec, step, hab, hcur, hth, runPC, ASSERT, hheld, goto, setThread]
  · rw [b2]; exact hab
  · simp [runPC, goto, setThread]
  · intro h
    rw [b5 h]
    exact ⟨h, rfl⟩
  · intro t rest h
    exact b6 t rest h

/-- Witness of C8: threads 1 and 2 wait on the condition, thread 0 holds the lock
and calls `Signal`. -/
theorem C8_signal_wakes_head_witness :
    ∃ s, exec (initState 0 1 [2, 0]) (traceTwoWaiters ++ [Event.call Op.Signal]) = some s ∧
      s.cond.waitingThreads = [1, 2] ∧ s.readyList = [] ∧
      ∃ s1, exec s [Event.run, Event.run] = some s1 ∧
        s1 = runPC 0 PC.Signal_body (goto 0 PC.Signal_body s) ∧
        s1.lock = s.lock ∧ s1.aborted = false ∧ s1.level = s.level ∧
        s1.threads 0 = { pc := PC.client, yielded := none } ∧
        (s.cond.waitingThreads = [] →
          s1.cond.waitingThreads = [] ∧ s1.readyList = s.readyList) ∧
        (∀ t rest, s.cond.waitingThreads = t :: rest →
          s1.cond.waitingThreads = rest ∧ s1.readyList = s.readyList ++ [t]) :=
  ⟨_, rfl, rfl, rfl, (C8_signal_wakes_head _ 0 rfl rfl rfl (by rfl)).1⟩

/-- Claim C9: the loop of `Condition::Broadcast` terminates on every queue `q`,
appends to the ready list exactly the threads of `q`, each once and in queue order,
and leaves the queue empty; on the machine `Broadcast` called by the holder of the
lock passes its assertion and changes neither the lock's owner nor its semaphore. -/
theorem C9_broadcast_wakes_all (s : State) (c : Tid)
    (hab : s.aborted = false) (hcur : s.currentThread = some c)
    (hth : s.threads c = { pc := PC.Broadcast_assert, yielded := none })
    (hheld : s.lock.isHeldByCurrentThread c = true) :
    (∀ (q : WaitQueue) (readyList : List Tid),
      Condition.Broadcast { waitingThreads := q } readyList
        = ({ waitingThreads := [] }, readyList ++ q)) ∧
    (∃ s1, exec s [Event.run, Event.run] = some s1 ∧
      s1.cond.waitingThreads = [] ∧ s1.readyList = s.readyList ++ s.cond.waitingThreads ∧
      s1.lock = s.lock ∧ s1.aborted = false ∧ s1.level = s.level ∧ s1.sem = s.sem ∧
      s1.threads c = { pc := PC.client, yielded := none }) ∧
    (∀ s2 : State,
      (runPC c PC.Broadcast_body s2).cond.waitingThreads = [] ∧
      (runPC c PC.Broadcast_body s2).readyList = s2.readyList ++ s2.cond.waitingThreads ∧
      (runPC c PC.Broadcast_body s2).lock = s2.lock ∧
      (runPC c PC.Broadcast_body s2).aborted = s2.aborted) := by
  have body : ∀ s2 : State,
      (runPC c PC.Broadcast_body s2).cond.waitingThreads = [] ∧
      (runPC c PC.Broadcast_body s2).readyList = s2.readyList ++ s2.cond.waitingThreads ∧
      (runPC c PC.Broadcast_body s2).lock = s2.lock ∧
      (runPC c PC.Broadcast_body s2).aborted = s2.aborted := by
    intro s2
    have := Broadcast_spec s2.cond.waitingThreads s2.readyList
    simp only [runPC, goto]
    rw [show s2.cond = { waitingThreads := s2.cond.waitingThreads } from rfl, this]
    simp
  refine ⟨Broadcast_spec, ?_, body⟩
  obtain ⟨b1, b2, b3, b4⟩ := body (goto c PC.Broadcast_body s)
  refine ⟨runPC c PC.Broadcast_body (goto c PC.Broadcast_body s), ?_, b1, b2, b3, ?_, rfl, rfl, ?_⟩
  · simp [exec, step, hab, hcur, hth, runPC, ASSERT, hheld, goto, setThread]
  · rw [b4]; exact hab
  · simp [runPC, goto, setThread]

/-- Witness of C9: threads 1 and 2 wait on the condition, thread 0 holds the lock
and calls `Broadcast`. -/
theorem C9_broadcast_wakes_all_witness :
    ∃ s, exec (initState 0 1 [2, 0]) (traceTwoWaiters ++ [Event.call Op.Broadcast]) = some s ∧
      s.cond.waitingThreads = [1, 2] ∧ s.readyList = [] ∧
      ∃ s1, exec s [Event.run, Event.run] = some s1 ∧
        s1.cond.waitingThreads = [] ∧ s1.readyList = s.readyList ++ s.cond.waitingThreads ∧
        s1.lock = s.lock ∧ s1.aborted = false ∧ s1.level = s.level ∧ s1.sem = s.sem ∧
        s1.threads 0 = { pc := PC.client, yielded := none } :=
  ⟨_, rfl, rfl, rfl, (C9_broadcast_wakes_all _ 0 rfl rfl rfl (by rfl)).2.1⟩

/-- Claim C10: in every reachable state, a thread `t` standing at the return of
`Condition::Wait` (line 163, after `Acquire` has returned) is the owner of the
lock, and it still is once `Wait` has returned to its caller. -/
theorem C10_wait_returns_holding (s0 s : State) (es : List Event) (h0 : Initial s0)
    (h : exec s0 es = some s) (t : Tid) (hpc : (s.threads t).pc = PC.Wait_return) :
    s.lock.isHeldByCurrentThread t = true ∧
    (runPC t PC.Wait_return s).lock.isHeldByCurrentThread t = true ∧
    ((runPC t PC.Wait_return s).threads t).pc = PC.client := by
  have hI := inv_reachable s0 s es h0 h
  have ho := hI.own t (by rw [hpc]; rfl)
  simp [Lock.isHeldByCurrentThread, ho, runPC, goto, setThread]

/-- Witness of C10: thread 0 waits, thread 1 signals and releases, thread 0 runs
up to the return of `Wait`. -/
theorem C10_wait_returns_holding_witness :
    ∃ s, exec (initState 0 0 [1]) traceWaitSignal = some s ∧
      (s.threads 0).pc = PC.Wait_return ∧
      s.lock.isHeldByCurrentThread 0 = true ∧
      (runPC 0 PC.Wait_return s).lock.isHeldByCurrentThread 0 = true ∧
      ((runPC 0 PC.Wait_return s).threads 0).pc = PC.client :=
  ⟨_, rfl, rfl,
    C10_wait_returns_holding (initState 0 0 [1]) _ traceWaitSignal (initial_initState 0 0 [1])
      rfl 0 (by rfl)⟩

/-- Claim C19: in every state reached by any run of `Acquire`, `Release`, `Wait`,
`Signal` and `Broadcast` steps (a failed assertion aborts the machine), the value
of the lock's semaphore is 0 or 1, it is 0 whenever the owner is some thread, and
so it is 1 only when the owner is `NULL`. -/
theorem C19_lock_counter_binary (s0 s : State) (es : List Event) (h0 : Initial s0)
    (h : exec s0 es = some s) :
    (s.lock.sem.value = 0 ∨ s.lock.sem.value = 1) ∧
    (∀ t, s.lock.ownerThread = some t → s.lock.sem.value = 0) ∧
    (s.lock.sem.value = 1 → s.lock.ownerThread = none) := by
  have hI := inv_reachable s0 s es h0 h
  refine ⟨hI.value01, hI.owner_value, ?_⟩
  intro h1
  cases ho : s.lock.ownerThread with
  | none => rfl
  | some t =>
    have := hI.owner_value t ho
    rw [this] at h1
    exact absurd h1 (by decide)

/-- Witness of C19: thread 0 holds the lock and thread 1 is blocked in `Acquire`. -/
theorem C19_lock_counter_binary_witness :
    ∃ s, exec (initState 0 0 [1])
        [Event.call Op.Acquire, Event.run, Event.run, Event.timer, Event.dispatch 1, Event.run,
          Event.call Op.Acquire, Event.run] = some s ∧
      s.lock = { sem := { value := 0, queue := [1] }, ownerThread := some 0 } ∧
      (s.lock.sem.value = 0 ∨ s.lock.sem.value = 1) ∧
      (∀ t, s.lock.ownerThread = some t → s.lock.sem.value = 0) ∧
      (s.lock.sem.value = 1 → s.lock.ownerThread = none) :=
  ⟨_, rfl, rfl, C19_lock_counter_binary (initState 0 0 [1]) _
    [Event.call Op.Acquire, Event.run, Event.run, Event.timer, Event.dispatch 1, Event.run,
      Event.call Op.Acquire, Event.run] (initial_initState 0 0 [1]) rfl⟩

/-- An event that is not the assignment of line 120 leaves a `NULL` owner `NULL`. -/
theorem step_owner_none (e : Event) (s s1 : State) (h : step e s = some s1)
    (hno : setsOwner s e = false) (ho : s.lock.ownerThread = none) :
    s1.lock.ownerThread = none := by
  obtain ⟨_, h | h | h | h | h | h⟩ := step_cases e s s1 h
  · obtain ⟨t, rfl, _, _, rfl⟩ := h
    exact ho
  · obtain ⟨c, old, rfl, _, _, rfl⟩ := h
    exact ho
  · obtain ⟨c, rfl, hc, hy, rfl⟩ := h
    generalize hpc : (s.threads c).pc = pc
    cases pc <;>
      simp [setsOwner, hc, hy, hpc] at hno <;>
      simp only [runPC, runP_eq, runV, goto, Sleep, ASSERT, Finish, Fork, Yield_eq, getSem,
        setSem, Semaphore.V] <;>
      (try split_ifs) <;> exact ho
  · obtain ⟨c, rfl, _, _, _, rfl⟩ := h
    rw [Yield_eq]
    split_ifs <;> exact ho
  · obtain ⟨c, op, rfl, _, _, _, rfl⟩ := h
    exact ho
  · obtain ⟨c, l, rfl, _, _, _, rfl⟩ := h
    exact ho

/-- A run without an assignment of line 120 leaves a `NULL` owner `NULL`. -/
theorem exec_owner_none (es : List Event) : ∀ (s s1 : State), exec s es = some s1 →
    countOf setsOwner s es = 0 → s.lock.ownerThread = none → s1.lock.ownerThread = none := by
  induction es with
  | nil => intro s s1 h _ ho; simp [exec] at h; subst h; exact ho
  | cons e es ih =>
    intro s s1 h hcnt ho
    simp only [exec] at h
    cases hs : step e s with
    | none => simp [hs] at h
    | some s2 =>
      simp [hs] at h
      simp only [countOf, hs] at hcnt
      have hno : setsOwner s e = false := by
        cases hb : setsOwner s e with
        | false => rfl
        | true => simp [hb] at hcnt
      have hrest : countOf setsOwner s2 es = 0 := by omega
      exact ih s2 s1 h hrest (step_owner_none e s s2 hs hno ho)

/-- Claim C18: `Lock::Release` by the owner clears the owner (line 130) before its
`V` runs (line 131).  In every reachable state in which a thread stands at that
`V` the owner is `NULL`; it is `NULL` in the state `V` produces, in which the head
of the queue has been made ready; and it stays `NULL` in every state reached from
there by a run in which no `Acquire` assigns the owner, so no thread sees the
releasing thread as owner. -/
theorem C18_owner_cleared_before_V (s0 s : State) (es : List Event) (h0 : Initial s0)
    (h : exec s0 es = some s) (c : Tid) (cl : Caller)
    (hpc : (s.threads c).pc = PC.Release_V cl) :
    s.lock.ownerThread = none ∧
    (∀ s3 : State,
      (runPC c (PC.Release_clear cl) s3).lock.ownerThread = none ∧
      (runPC c (PC.Release_clear cl) s3).lock.sem = s3.lock.sem ∧
      (runPC c (PC.Release_clear cl) s3).readyList = s3.readyList ∧
      ((runPC c (PC.Release_clear cl) s3).threads c).pc = PC.Release_V cl) ∧
    (runPC c (PC.Release_V cl) s).lock.ownerThread = none ∧
    ((runPC c (PC.Release_V cl) s).lock.sem, (runPC c (PC.Release_V cl) s).readyList)
      = s.lock.sem.V s.readyList ∧
    (∀ (es2 : List Event) (s2 : State),
      exec (runPC c (PC.Release_V cl) s) es2 = some s2 →
      countOf setsOwner (runPC c (PC.Release_V cl) s) es2 = 0 →
      s2.lock.ownerThread = none ∧ ∀ u, s2.lock.isHeldByCurrentThread u = false) := by
  have hI := inv_reachable s0 s es h0 h
  have ho := (hI.pending_value c (by rw [hpc]; rfl)).2
  have ho1 : (runPC c (PC.Release_V cl) s).lock.ownerThread = none := by
    simp [runPC, runV, getSem, setSem, goto, ho]
  refine ⟨ho, ?_, ho1, ?_, ?_⟩
  · intro s3
    simp [runPC, goto, setThread]
  · simp [runPC, runV, getSem, setSem, goto]
  · intro es2 s2 hex hcnt
    have := exec_owner_none es2 _ s2 hex hcnt ho1
    exact ⟨this, by intro u; simp [Lock.isHeldByCurrentThread, this]⟩

/-- Witness of C18: thread 1 is blocked in `Acquire`, thread 0 stands at the `V` of
its `Release`; after the `V` thread 1 is ready, and the owner is still `NULL` when
thread 1 has run up to line 120. -/
theorem C18_owner_cleared_before_V_witness :
    ∃ s, exec (initState 0 0 [1])
        [Event.call Op.Acquire, Event.run, Event.run, Event.timer, Event.dispatch 1, Event.run,
          Event.call Op.Acquire, Event.run, Event.dispatch 0, Event.run, Event.call Op.Release,
          Event.run, Event.run] = some s ∧
      (s.threads 0).pc = PC.Release_V Caller.client ∧
      s.lock = { sem := { value := 0, queue := [1] }, ownerThread := none } ∧
      (runPC 0 (PC.Release_V Caller.client) s).readyList = [1] ∧
      ∃ s2, exec (runPC 0 (PC.Release_V Caller.client) s)
          [Event.timer, Event.dispatch 1, Event.run] = some s2 ∧
        (s2.threads 1).pc = PC.Acquire_setOwner Caller.client ∧
        s2.lock.ownerThread = none ∧ ∀ u, s2.lock.isHeldByCurrentThread u = false :=
  ⟨_, rfl, rfl, rfl, rfl, _, rfl, rfl,
    (C18_owner_cleared_before_V (initState 0 0 [1]) _
      [Event.call Op.Acquire, Event.run, Event.run, Event.timer, Event.dispatch 1, Event.run,
        Event.call Op.Acquire, Event.run, Event.dispatch 0, Event.run, Event.call Op.Release,
        Event.run, Event.run] (initial_initState 0 0 [1]) rfl 0 Caller.client
      (by rfl)).2.2.2.2 [Event.timer, Event.dispatch 1, Event.run] _ rfl (by decide)⟩

/-- Claim C13: on a semaphore of value 1 with an empty queue, thread `a` calls `P`
and returns with value 0; thread `b` calls `P`, is queued and blocked, the value
staying 0; `a` calls `V`, which removes `b` from the queue, makes it ready and sets
the value to 1; `b` resumes at the loop test of `P`, finds 1, decrements and
returns.  The final value is 0 and the queue is empty. -/
theorem C13_semaphore_scenario (s : State) (a b : Tid) (hs : s.sem = Semaphore.new 1) :
    ∃ s1 s2 s3 s4 : State,
      s1 = runPC a PC.P_entry s ∧
      s1.sem = { value := 0, queue := [] } ∧ (s1.threads a).pc = PC.client ∧
      s2 = runPC b PC.P_entry s1 ∧
      s2.sem = { value := 0, queue := [b] } ∧ (s2.threads b).pc = PC.P_loop s.level ∧
      s2.currentThread = none ∧ s2.readyList = s.readyList ∧
      s3 = runPC a PC.V_entry s2 ∧
      s3.sem = { value := 1, queue := [] } ∧ s3.readyList = s.readyList ++ [b] ∧
      s4 = runPC b (PC.P_loop s.level) s3 ∧
      s4.sem = { value := 0, queue := [] } ∧ (s4.threads b).pc = PC.client ∧
      s4.level = s.level ∧ s4.aborted = s.aborted := by
  refine ⟨_, _, _, _, rfl, ?_, ?_, rfl, ?_, ?_, ?_, ?_, rfl, ?_, ?_, rfl, ?_, ?_, ?_, ?_⟩ <;>
    simp [runPC, runP_eq, runV, getSem, setSem, goto, Sleep, Semaphore.V, WaitQueue.Remove,
      WaitQueue.Append, ReadyToRun, setThread, hs, Semaphore.new]

/-- Witness of C13: the scenario with threads 0 and 1, as single transitions and as
the run `traceSemaphoreScenario` of the machine with its context switches. -/
theorem C13_semaphore_scenario_witness :
    (∃ s1 s2 s3 s4 : State,
      s1 = runPC 0 PC.P_entry (initState 1 0 [1]) ∧
      s1.sem = { value := 0, queue := [] } ∧ (s1.threads 0).pc = PC.client ∧
      s2 = runPC 1 PC.P_entry s1 ∧
      s2.sem = { value := 0, queue := [1] } ∧
      (s2.threads 1).pc = PC.P_loop (initState 1 0 [1]).level ∧
      s2.currentThread = none ∧ s2.readyList = (initState 1 0 [1]).readyList ∧
      s3 = runPC 0 PC.V_entry s2 ∧
      s3.sem = { value := 1, queue := [] } ∧
      s3.readyList = (initState 1 0 [1]).readyList ++ [1] ∧
      s4 = runPC 1 (PC.P_loop (initState 1 0 [1]).level) s3 ∧
      s4.sem = { value := 0, queue := [] } ∧ (s4.threads 1).pc = PC.client ∧
      s4.level = (initState 1 0 [1]).level ∧ s4.aborted = (initState 1 0 [1]).aborted) ∧
    (∃ s, exec (initState 1 0 [1]) traceSemaphoreScenario = some s ∧
      s.sem = { value := 0, queue := [] } ∧ (s.threads 0).pc = PC.client ∧
      (s.threads 1).pc = PC.client ∧ s.aborted = false) :=
  ⟨C13_semaphore_scenario (initState 1 0 [1]) 0 1 rfl, _, rfl, rfl, rfl, rfl, rfl⟩

/-- Claim C14: on a new lock, thread `a` acquires (owner `a`); thread `b` calls
`Acquire` and blocks in the queue of the lock's semaphore; `a` releases (owner
`NULL`, `b` made ready, value 1); `b` resumes inside `P`, takes the value and
becomes the owner.  In the final state `isHeldByCurrentThread()` is true for `b`
and false for `a`, the value is 0 and the queue is empty. -/
theorem C14_lock_scenario (s : State) (a b : Tid) (hs : s.lock = Lock.new) (hab : a ≠ b) :
    ∃ s1 s2 s3 s4 : State,
      s1 = runPC a (PC.Acquire_setOwner Caller.client)
        (runPC a (PC.Acquire_P Caller.client) s) ∧
      s1.lock = { sem := { value := 0, queue := [] }, ownerThread := some a } ∧
      (s1.threads a).pc = PC.client ∧
      s2 = runPC b (PC.Acquire_P Caller.client) s1 ∧
      s2.lock = { sem := { value := 0, queue := [b] }, ownerThread := some a } ∧
      (s2.threads b).pc = PC.Acquire_P_loop Caller.client s.level ∧
      s2.currentThread = none ∧ s2.readyList = s.readyList ∧
      s3 = runPC a (PC.Release_V Caller.client) (runPC a (PC.Release_clear Caller.client)
        (runPC a (PC.Release_assert Caller.client) s2)) ∧
      s3.lock = { sem := { value := 1, queue := [] }, ownerThread := none } ∧
      s3.readyList = s.readyList ++ [b] ∧ (s3.threads a).pc = PC.client ∧
      s4 = runPC b (PC.Acquire_setOwner Caller.client)
        (runPC b (PC.Acquire_P_loop Caller.client s.level) s3) ∧
      s4.lock = { sem := { value := 0, queue := [] }, ownerThread := some b } ∧
      (s4.threads b).pc = PC.client ∧
      s4.lock.isHeldByCurrentThread b = true ∧ s4.lock.isHeldByCurrentThread a = false ∧
      s4.aborted = s.aborted := by
  have hba : b ≠ a := fun h => hab h.symm
  refine ⟨_, _, _, _, rfl, ?_, ?_, rfl, ?_, ?_, ?_, ?_, rfl, ?_, ?_, ?_, rfl, ?_, ?_, ?_, ?_,
    ?_⟩ <;>
    simp [runPC, runP_eq, runV, getSem, setSem, goto, Sleep, ASSERT, Semaphore.V,
      WaitQueue.Remove, WaitQueue.Append, ReadyToRun, setThread, hs, Lock.new, Semaphore.new,
      Lock.isHeldByCurrentThread, Caller.afterAcquire, Caller.afterRelease, hab, hba]

/-- Witness of C14: the scenario with threads 0 and 1 as the run `traceLockScenario`
of the machine with its context switches. -/
theorem C14_lock_scenario_witness :
    (∃ s, exec (initState 0 0 [1]) traceLockScenario = some s ∧
      s.lock = { sem := { value := 0, queue := [] }, ownerThread := some 1 } ∧
      s.lock.isHeldByCurrentThread 1 = true ∧ s.lock.isHeldByCurrentThread 0 = false ∧
      (s.threads 0).pc = PC.client ∧ (s.threads 1).pc = PC.client ∧ s.aborted = false) ∧
    (∃ s1 s2 s3 s4 : State,
      s1 = runPC 0 (PC.Acquire_setOwner Caller.client)
        (runPC 0 (PC.Acquire_P Caller.client) (initState 0 0 [1])) ∧
      s1.lock = { sem := { value := 0, queue := [] }, ownerThread := some 0 } ∧
      (s1.threads 0).pc = PC.client ∧
      s2 = runPC 1 (PC.Acquire_P Caller.client) s1 ∧
      s2.lock = { sem := { value := 0, queue := [1] }, ownerThread := some 0 } ∧
      (s2.threads 1).pc = PC.Acquire_P_loop Caller.client (initState 0 0 [1]).level ∧
      s2.currentThread = none ∧ s2.readyList = (initState 0 0 [1]).readyList ∧
      s3 = runPC 0 (PC.Release_V Caller.client) (runPC 0 (PC.Release_clear Caller.client)
        (runPC 0 (PC.Release_assert Caller.client) s2)) ∧
      s3.lock = { sem := { value := 1, queue := [] }, ownerThread := none } ∧
      s3.readyList = (initState 0 0 [1]).readyList ++ [1] ∧ (s3.threads 0).pc = PC.client ∧
      s4 = runPC 1 (PC.Acquire_setOwner Caller.client)
        (runPC 1 (PC.Acquire_P_loop Caller.client (initState 0 0 [1]).level) s3) ∧
      s4.lock = { sem := { value := 0, queue := [] }, ownerThread := some 1 } ∧
      (s4.threads 1).pc = PC.client ∧
      s4.lock.isHeldByCurrentThread 1 = true ∧ s4.lock.isHeldByCurrentThread 0 = false ∧
      s4.aborted = (initState 0 0 [1]).aborted) :=
  ⟨⟨_, rfl, rfl, rfl, rfl, rfl, rfl, rfl⟩,
    C14_lock_scenario (initState 0 0 [1]) 0 1 rfl (by decide)⟩

/-- Claim C15: there is a run in which a wakeup is lost.  Thread 0 calls `Wait`,
completes the `Release` inside it and is preempted before line 157, the queue of
the condition being empty; thread 1 acquires the lock and calls `Signal`, whose
atomic section finds the queue empty and leaves queue and ready list as they were
(thread 0 is in the ready list because it was preempted, not because it was
signalled); thread 0 then runs lines 157-159.  In the final state thread 0 is in
the queue of the condition, is neither running nor ready, and thread 1 has returned
from `Signal`.  The same run exists with `Broadcast` in place of `Signal`. -/
theorem C15_lost_wakeup :
    (∃ sA sB sC s : State,
      exec (initState 0 0 [1]) traceLostWakeupA = some sA ∧
      (sA.threads 0).pc = PC.Wait_enqueue ∧ sA.lock.ownerThread = none ∧
      sA.cond.waitingThreads = [] ∧
      exec sA traceLostWakeupB = some sB ∧
      sB.currentThread = some 1 ∧ (sB.threads 1).pc = PC.Signal_body ∧
      sB.lock.ownerThread = some 1 ∧ sB.cond.waitingThreads = [] ∧ sB.readyList = [0] ∧
      (sB.threads 0).pc = PC.Wait_enqueue ∧
      step Event.run sB = some sC ∧
      sC.cond.waitingThreads = [] ∧ sC.readyList = sB.readyList ∧
      (sC.threads 1).pc = PC.client ∧
      exec sC traceLostWakeupC = some s ∧
      s.cond.waitingThreads = [0] ∧ s.currentThread = none ∧ s.readyList = [1] ∧
      (s.threads 0).pc = PC.Wait_resume IntStatus.IntOn ∧ (s.threads 0).yielded = none ∧
      s.aborted = false) ∧
    (∃ sB sC s : State,
      exec (initState 0 0 [1]) (traceLostWakeupA ++ traceLostWakeupBroadcast) = some sB ∧
      (sB.threads 1).pc = PC.Broadcast_body ∧ sB.cond.waitingThreads = [] ∧
      sB.readyList = [0] ∧ (sB.threads 0).pc = PC.Wait_enqueue ∧
      step Event.run sB = some sC ∧
      sC.cond.waitingThreads = [] ∧ sC.readyList = sB.readyList ∧
      exec sC traceLostWakeupC = some s ∧
      s.cond.waitingThreads = [0] ∧ s.currentThread = none ∧ s.readyList = [1] ∧
      (s.threads 0).pc = PC.Wait_resume IntStatus.IntOn ∧ s.aborted = false) := by
  refine ⟨⟨_, _, _, _, rfl, rfl, rfl, rfl, rfl, rfl, rfl, rfl, rfl, rfl, rfl, rfl, rfl, rfl,
    rfl, rfl, rfl, rfl, rfl, rfl, rfl, rfl⟩,
    ⟨_, _, _, rfl, rfl, rfl, rfl, rfl, rfl, rfl, rfl, rfl, rfl, rfl, rfl, rfl, rfl⟩⟩

/-- The atomic section of `V` moves at most the head of the queue to the ready list. -/
theorem V_count (sem : Semaphore) (readyList : List Tid) (t : Tid) :
    (sem.V readyList).1.queue.count t + (sem.V readyList).2.count t
      = sem.queue.count t + readyList.count t := by
  cases hq : sem.queue with
  | nil => simp [Semaphore.V, WaitQueue.Remove, hq]
  | cons u rest =>
    simp [Semaphore.V, WaitQueue.Remove, hq, ReadyToRun, List.count_append, List.count_cons,
      List.count_singleton]
    omega

/-- The atomic section of `Signal` moves at most the head of the queue to the ready
list. -/
theorem Signal_count (cv : Condition) (readyList : List Tid) (t : Tid) :
    (cv.Signal readyList).1.waitingThreads.count t + (cv.Signal readyList).2.count t
      = cv.waitingThreads.count t + readyList.count t := by
  cases hq : cv.waitingThreads with
  | nil => simp [Condition.Signal, WaitQueue.Remove, hq]
  | cons u rest =>
    simp [Condition.Signal, WaitQueue.Remove, hq, ReadyToRun, List.count_append,
      List.count_cons, List.count_singleton]
    omega

/-- The atomic section of `Broadcast` moves the queue to the ready list. -/
theorem Broadcast_count (cv : Condition) (readyList : List Tid) (t : Tid) :
    (cv.Broadcast readyList).1.waitingThreads.count t + (cv.Broadcast readyList).2.count t
      = cv.waitingThreads.count t + readyList.count t := by
  have := Broadcast_spec cv.waitingThreads readyList
  rw [show cv = { waitingThreads := cv.waitingThreads } from rfl, this]
  simp [List.count_append]
  omega

/-- A transition of the running thread, outside the loop of `ThreadTest`, records no
thread more often than before. -/
theorem occ_runPC (s : State) (c t : Tid) (pc : PC) (hc : s.currentThread = some c)
    (hpc : ∀ i n, pc ≠ PC.TT_fork i n) :
    occ (runPC c pc s) t ≤ occ s t := by
  cases pc
  case V_entry =>
    have := V_count s.sem s.readyList t
    simp only [occ, runPC, runV, getSem, setSem, goto] at this ⊢
    omega
  case Release_V cl =>
    have := V_count s.lock.sem s.readyList t
    simp only [occ, runPC, runV, getSem, setSem, goto] at this ⊢
    omega
  case Signal_body =>
    have := Signal_count s.cond s.readyList t
    simp only [occ, runPC, goto] at this ⊢
    omega
  case Broadcast_body =>
    have := Broadcast_count s.cond s.readyList t
    simp only [occ, runPC, goto] at this ⊢
    omega
  case TT_fork i n => exact absurd rfl (hpc i n)
  all_goals
    (simp only [runPC, runP_eq, goto, Sleep, ASSERT, Finish, Yield_eq, getSem, setSem,
      WaitQueue.Append, ReadyToRun, Lock.isHeldByCurrentThread]
     (try split_ifs) <;>
     by_cases htc : c = t <;>
     (simp [occ, hc, htc, List.count_append, List.count_singleton]; try omega))

/-- An event records no thread more often than before, the thread forked by
`ThreadTest` apart. -/
theorem occ_step (e : Event) (s s1 : State) (h : step e s = some s1) (t : Tid) :
    occ s1 t ≤ occ s t + (if forkTarget s e = some t then 1 else 0) := by
  obtain ⟨_, h | h | h | h | h | h⟩ := step_cases e s s1 h
  · obtain ⟨u, rfl, hc, hu, rfl⟩ := h
    have h1 : 1 ≤ s.readyList.count u := List.one_le_count_iff.mpr hu
    by_cases hut : u = t
    · subst hut
      simp [occ, hc, List.count_erase]
      omega
    · simp [occ, hc, List.count_erase, hut]
  · obtain ⟨c, old, rfl, hc, hy, rfl⟩ := h
    simp [occ, goto]
  · obtain ⟨c, rfl, hc, hy, rfl⟩ := h
    by_cases hf : ∃ i n, (s.threads c).pc = PC.TT_fork i n
    · obtain ⟨i, n, hpc⟩ := hf
      rw [hpc]
      simp only [forkTarget, hc, hy, hpc, runPC, Fork, Finish, goto, Sleep, ReadyToRun]
      by_cases htc : c = t <;> by_cases hin : i < n <;> by_cases hti : i + 1 = t <;>
        (simp [occ, hc, htc, hin, hti, List.count_append, List.count_singleton]; try omega)
    · have hpc : ∀ i n, (s.threads c).pc ≠ PC.TT_fork i n := by
        intro i n hh; exact hf ⟨i, n, hh⟩
      have := occ_runPC s c t (s.threads c).pc hc hpc
      omega
  · obtain ⟨c, rfl, hc, _, _, rfl⟩ := h
    rw [Yield_eq]
    split_ifs <;> by_cases htc : c = t <;>
      (simp [occ, hc, htc, goto, ReadyToRun, List.count_append, List.count_singleton]; try omega)
  · obtain ⟨c, op, rfl, hc, _, _, rfl⟩ := h
    simp [occ, goto]
  · obtain ⟨c, l, rfl, hc, _, _, rfl⟩ := h
    simp [occ]

/-- The thread forked by an event is the next one in the loop of `ThreadTest` run
by the current thread. -/
theorem forkTarget_some (s : State) (e : Event) (x : Tid) (h : forkTarget s e = some x) :
    ∃ c i n, s.currentThread = some c ∧ (s.threads c).pc = PC.TT_fork i n ∧ x = i + 1 := by
  unfold forkTarget at h
  split at h
  · rename_i c hc
    split_ifs at h
    split at h
    · rename_i i n hpc
      split_ifs at h
      simp at h
      exact ⟨c, i, n, hc, hpc, h.symm⟩
    · simp at h
  · simp at h

/-- An event changes the control state of the running thread and of the thread it
forks only. -/
theorem threads_step (e : Event) (s s1 : State) (h : step e s = some s1) (t : Tid)
    (hcur : s.currentThread ≠ some t) (hf : forkTarget s e ≠ some t) :
    s1.threads t = s.threads t := by
  obtain ⟨_, h | h | h | h | h | h⟩ := step_cases e s s1 h
  · obtain ⟨u, rfl, hc, hu, rfl⟩ := h
    rfl
  · obtain ⟨c, old, rfl, hc, hy, rfl⟩ := h
    have htc : t ≠ c := by intro e; rw [hc, e] at hcur; exact hcur rfl
    simp [goto, setThread, htc]
  · obtain ⟨c, rfl, hc, hy, rfl⟩ := h
    have htc : t ≠ c := by intro e; rw [hc, e] at hcur; exact hcur rfl
    generalize hpc : (s.threads c).pc = pc
    cases pc
    case TT_fork i n =>
      simp only [forkTarget, hc, hy, hpc] at hf
      simp only [runPC, Fork, Finish, goto, Sleep]
      split_ifs with hin
      · have : t ≠ i + 1 := by
          intro e; rw [if_pos hin, e] at hf; exact hf rfl
        simp [setThread, htc, this]
      · simp [setThread, htc]
    all_goals
      simp only [runPC, runP_eq, runV, goto, Sleep, ASSERT, Finish, Yield_eq, getSem, setSem] <;>
      (try split_ifs) <;>
      simp [setThread, htc]
  · obtain ⟨c, rfl, hc, _, _, rfl⟩ := h
    have htc : t ≠ c := by intro e; rw [hc, e] at hcur; exact hcur rfl
    rw [Yield_eq]
    split_ifs <;> simp [goto, setThread, htc]
  · obtain ⟨c, op, rfl, hc, _, _, rfl⟩ := h
    have htc : t ≠ c := by intro e; rw [hc, e] at hcur; exact hcur rfl
    simp [goto, setThread, htc]
  · obtain ⟨c, l, rfl, hc, _, _, rfl⟩ := h
    rfl

/-- A thread found in the loop of `ThreadTest` after an event was in it before, at
the same iteration or, if it has just forked, at the one before. -/
theorem fork_pc_step (e : Event) (s s1 : State) (h : step e s = some s1) (t : Tid)
    (i n : Nat) (hpc : (s1.threads t).pc = PC.TT_fork i n) :
    (s.threads t).pc = PC.TT_fork i n ∨
    (∃ i0, (s.threads t).pc = PC.TT_fork i0 n ∧ i = i0 + 1 ∧ s.currentThread = some t ∧
      forkTarget s e = some i) := by
  by_cases hcur : s.currentThread = some t
  · obtain ⟨_, h | h | h | h | h | h⟩ := step_cases e s s1 h
    · obtain ⟨u, rfl, hc, hu, rfl⟩ := h
      exact Or.inl hpc
    · obtain ⟨c, old, rfl, hc, hy, rfl⟩ := h
      have : c = t := by rw [hc] at hcur; exact Option.some.inj hcur
      subst this
      left; simpa [goto, setThread] using hpc
    · obtain ⟨c, rfl, hc, hy, rfl⟩ := h
      have : c = t := by rw [hc] at hcur; exact Option.some.inj hcur
      subst this
      generalize hq : (s.threads c).pc = pc at hpc
      cases pc with
      | TT_fork i0 n0 =>
        simp only [runPC, Fork, Finish, goto, Sleep] at hpc
        split_ifs at hpc with hin
        · simp [setThread] at hpc
          right
          refine ⟨i0, ?_, hpc.1.symm, hc, ?_⟩
          · rw [hpc.2]
          · simp [forkTarget, hc, hy, hq, hin, hpc.1]
        · simp [setThread] at hpc
      | _ =>
        simp only [runPC, runP_eq, runV, goto, Sleep, ASSERT, Finish, Yield_eq, getSem,
          setSem] at hpc
        (try split_ifs at hpc) <;>
        (try cases_type* Caller) <;>
        simp [setThread, hq, Caller.afterAcquire, Caller.afterRelease] at hpc
    · obtain ⟨c, rfl, hc, _, _, rfl⟩ := h
      have : c = t := by rw [hc] at hcur; exact Option.some.inj hcur
      subst this
      rw [Yield_eq] at hpc
      left
      split_ifs at hpc <;> simpa [goto, setThread] using hpc
    · obtain ⟨c, op, rfl, hc, _, hcl, rfl⟩ := h
      have : c = t := by rw [hc] at hcur; exact Option.some.inj hcur
      subst this
      cases op <;> simp [goto, setThread, Op.entry] at hpc
    · obtain ⟨c, l, rfl, hc, _, _, rfl⟩ := h
      exact Or.inl hpc
  · by_cases hf : forkTarget s e = some t
    · obtain ⟨_, h | h | h | h | h | h⟩ := step_cases e s s1 h
      · obtain ⟨u, rfl, hc, hu, rfl⟩ := h
        simp [forkTarget, hc] at hf
      · obtain ⟨c, old, rfl, hc, hy, rfl⟩ := h
        simp [forkTarget, hc, hy] at hf
      · obtain ⟨c, rfl, hc, hy, rfl⟩ := h
        have htc : t ≠ c := by intro e; rw [hc, e] at hcur; exact hcur rfl
        obtain ⟨c2, i0, n0, hc2, hq, hx⟩ := forkTarget_some s _ t hf
        have : c2 = c := by rw [hc] at hc2; exact (Option.some.inj hc2).symm
        subst this
        have hin : i0 < n0 := by
          simp only [forkTarget, hc, hy, hq] at hf
          by_contra hn
          simp [hn] at hf
        subst hx
        rw [hq] at hpc
        simp [runPC, Fork, goto, hin, setThread, htc] at hpc
      · obtain ⟨c, rfl, hc, _, _, rfl⟩ := h
        simp [forkTarget] at hf
      · obtain ⟨c, op, rfl, hc, _, _, rfl⟩ := h
        simp [forkTarget] at hf
      · obtain ⟨c, l, rfl, hc, _, _, rfl⟩ := h
        simp [forkTarget] at hf
    · left
      rw [← threads_step e s s1 h t hcur hf]
      exact hpc
/-- After a forking event the forking thread stands at the next iteration. -/
theorem forkTarget_step (e : Event) (s s1 : State) (h : step e s = some s1) (x : Tid)
    (hf : forkTarget s e = some x) :
    ∃ c i n, s.currentThread = some c ∧ (s.threads c).pc = PC.TT_fork i n ∧ x = i + 1 ∧
      (s1.threads c).pc = PC.TT_fork (i + 1) n := by
  obtain ⟨c, i, n, hc, hpc, hx⟩ := forkTarget_some s e x hf
  refine ⟨c, i, n, hc, hpc, hx, ?_⟩
  obtain ⟨_, h | h | h | h | h | h⟩ := step_cases e s s1 h
  · obtain ⟨u, rfl, hc2, _, rfl⟩ := h
    simp [forkTarget, hc2] at hf
  · obtain ⟨c2, old, rfl, hc2, hy, rfl⟩ := h
    simp [forkTarget, hc2, hy] at hf
  · obtain ⟨c2, rfl, hc2, hy, rfl⟩ := h
    have : c2 = c := by rw [hc] at hc2; exact (Option.some.inj hc2).symm
    subst this
    have hin : i < n := by
      simp only [forkTarget, hc, hy, hpc] at hf
      by_contra hn
      simp [hn] at hf
    rw [hpc]
    simp [runPC, goto, hin, setThread]
  · obtain ⟨c2, rfl, _, _, _, rfl⟩ := h
    simp [forkTarget] at hf
  · obtain ⟨c2, op, rfl, _, _, _, rfl⟩ := h
    simp [forkTarget] at hf
  · obtain ⟨c2, l, rfl, _, _, _, rfl⟩ := h
    simp [forkTarget] at hf

/-- A thread recorded nowhere is not the running thread. -/
theorem occ_zero_not_current (s : State) (j : Tid) (h : occ s j = 0) :
    s.currentThread ≠ some j := by
  intro e
  simp [occ, e] at h

/-- Every event preserves the scheduling invariant. -/
theorem sched_step (e : Event) (s s1 : State) (hS : Sched s) (h : step e s = some s1) :
    Sched s1 := by
  refine ⟨?_, ?_, ?_⟩
  · intro t
    have h1 := occ_step e s s1 h t
    by_cases hf : forkTarget s e = some t
    · obtain ⟨c, i, n, _, hpc, hx⟩ := forkTarget_some s e t hf
      have hx2 : i < t := by rw [hx]; exact Nat.lt_succ_self i
      have := (hS.unborn c i n hpc t hx2).2
      rw [if_pos hf] at h1
      omega
    · rw [if_neg hf] at h1
      have := hS.once t
      omega
  · intro c d i n j m hc hd
    have hc2 : ∃ i0, (s.threads c).pc = PC.TT_fork i0 n := by
      rcases fork_pc_step e s s1 h c i n hc with h0 | ⟨i0, h0, _⟩
      · exact ⟨i, h0⟩
      · exact ⟨i0, h0⟩
    have hd2 : ∃ j0, (s.threads d).pc = PC.TT_fork j0 m := by
      rcases fork_pc_step e s s1 h d j m hd with h0 | ⟨j0, h0, _⟩
      · exact ⟨j, h0⟩
      · exact ⟨j0, h0⟩
    obtain ⟨i0, hc3⟩ := hc2
    obtain ⟨j0, hd3⟩ := hd2
    exact hS.forker c d i0 n j0 m hc3 hd3
  · intro f i n hpc j hij
    have key : ∀ i0, (s.threads f).pc = PC.TT_fork i0 n → i0 < j →
        forkTarget s e ≠ some j → (s1.threads j).pc = PC.done ∧ occ s1 j = 0 := by
      intro i0 h0 hlt hnf
      have hu := hS.unborn f i0 n h0 j hlt
      have hjc := occ_zero_not_current s j hu.2
      have h1 := occ_step e s s1 h j
      rw [if_neg hnf] at h1
      refine ⟨?_, by omega⟩
      rw [threads_step e s s1 h j hjc hnf]
      exact hu.1
    rcases fork_pc_step e s s1 h f i n hpc with h0 | ⟨i0, h0, hi, _, hft⟩
    · apply key i h0 hij
      intro hf
      obtain ⟨c, i2, n2, _, hq, _, hq1⟩ := forkTarget_step e s s1 h j hf
      have hcf : c = f := hS.forker c f i2 n2 i n hq h0
      subst hcf
      rw [h0] at hq
      rw [hpc] at hq1
      have e1 := (PC.TT_fork.inj hq).1
      have e2 := (PC.TT_fork.inj hq1).1
      omega
    · apply key i0 h0 (by omega)
      intro hf
      rw [hft] at hf
      have := Option.some.inj hf
      omega

/-- Every run preserves the scheduling invariant. -/
theorem sched_exec (es : List Event) :
    ∀ (s s1 : State), Sched s → exec s es = some s1 → Sched s1 := by
  induction es with
  | nil => intro s s1 hS h; simp [exec] at h; subst h; exact hS
  | cons e es ih =>
    intro s s1 hS h
    simp only [exec] at h
    cases hs : step e s with
    | none => simp [hs] at h
    | some s2 =>
      simp [hs] at h
      exact ih s2 s1 (sched_step e s s2 hS hs) h

/-- The state `initState` satisfies the scheduling invariant when the ready threads
are distinct and different from the running thread. -/
theorem sched_initState (c0 : Int) (main : Tid) (others : List Tid) (hn : others.Nodup)
    (hm : main ∉ others) : Sched (initState c0 main others) := by
  refine ⟨?_, ?_, ?_⟩
  · intro t
    have h1 := List.nodup_iff_count_le_one.mp hn t
    by_cases htm : main = t
    · subst htm
      have h2 : others.count main = 0 := List.count_eq_zero.mpr hm
      simp [occ, initState, Semaphore.new, Lock.new, Condition.new, h2]
    · simp [occ, initState, Semaphore.new, Lock.new, Condition.new, htm]
      exact h1
  · intro c d i n j m hc
    simp only [initState] at hc
    split_ifs at hc
  · intro c i n hc
    simp only [initState] at hc
    split_ifs at hc

/-- The start of `ThreadTest` satisfies the scheduling invariant. -/
theorem sched_threadTestInit (n : Nat) : Sched (threadTestInit n) := by
  refine ⟨?_, ?_, ?_⟩
  · intro t
    simp [occ, threadTestInit, Semaphore.new, Lock.new, Condition.new]
    split_ifs <;> omega
  · intro c d i m j k hc hd
    simp only [threadTestInit] at hc hd
    split_ifs at hc hd
    simp_all
  · intro c i m hc j hij
    simp only [threadTestInit] at hc
    split_ifs at hc with h0
    · simp at hc
      have hj : j ≠ 0 := by omega
      simp [threadTestInit, occ, Semaphore.new, Lock.new, Condition.new, hj]
      exact fun h => hj h.symm

/-- What the scheduling invariant says about the queues and the ready list. -/
theorem sched_facts (s : State) (hS : Sched s) :
    (s.sem.queue ++ s.lock.sem.queue ++ s.cond.waitingThreads).Nodup ∧
    (∀ t, t ∈ s.sem.queue ++ s.lock.sem.queue ++ s.cond.waitingThreads →
      s.currentThread ≠ some t ∧ t ∉ s.readyList) ∧
    s.readyList.Nodup ∧
    (∀ t, s.currentThread = some t → t ∉ s.readyList) := by
  refine ⟨?_, ?_, ?_, ?_⟩
  · rw [List.nodup_iff_count_le_one]
    intro a
    have := hS.once a
    simp only [occ] at this
    simp only [List.count_append]
    omega
  · intro t ht
    have h1 : 1 ≤ (s.sem.queue ++ s.lock.sem.queue ++ s.cond.waitingThreads).count t :=
      List.one_le_count_iff.mpr ht
    have := hS.once t
    simp only [occ] at this
    simp only [List.count_append] at h1
    refine ⟨?_, ?_⟩
    · intro hc
      rw [if_pos hc] at this
      omega
    · intro hr
      have h2 : 1 ≤ s.readyList.count t := List.one_le_count_iff.mpr hr
      omega
  · rw [List.nodup_iff_count_le_one]
    intro a
    have := hS.once a
    simp only [occ] at this
    omega
  · intro t hc hr
    have h2 : 1 ≤ s.readyList.count t := List.one_le_count_iff.mpr hr
    have := hS.once t
    simp only [occ] at this
    rw [if_pos hc] at this
    omega

/-- Claim C20: in every state reached from a well-formed start (every thread
recorded at most once), every thread appears at most once across the queue of the
client semaphore, the queue of the lock's semaphore and the queue of the condition,
and a thread that appears in one of them is neither the running thread nor in the
ready list.  Hence the thread admitted by `V` or `Signal` (the head of the queue)
and the threads admitted by `Broadcast` (the whole queue) are neither ready nor
running nor admitted twice, and the ready list never holds a thread twice. -/
theorem C20_waiters_are_suspended (s0 s : State) (es : List Event) (hS : Sched s0)
    (h : exec s0 es = some s) :
    (s.sem.queue ++ s.lock.sem.queue ++ s.cond.waitingThreads).Nodup ∧
    (∀ t, t ∈ s.sem.queue ++ s.lock.sem.queue ++ s.cond.waitingThreads →
      s.currentThread ≠ some t ∧ t ∉ s.readyList) ∧
    s.readyList.Nodup ∧
    (∀ t, s.currentThread = some t → t ∉ s.readyList) ∧
    (∀ (r : SemRef) (t : Tid) (rest : List Tid), (getSem r s).queue = t :: rest →
      t ∉ s.readyList ∧ s.currentThread ≠ some t ∧ t ∉ rest) ∧
    (∀ (t : Tid) (rest : List Tid), s.cond.waitingThreads = t :: rest →
      t ∉ s.readyList ∧ s.currentThread ≠ some t ∧ t ∉ rest) ∧
    (∀ e s1, step e s = some s1 → s1.readyList.Nodup) := by
  have hS1 := sched_exec es s0 s hS h
  obtain ⟨f1, f2, f3, f4⟩ := sched_facts s hS1
  refine ⟨f1, f2, f3, f4, ?_, ?_, ?_⟩
  · intro r t rest hq
    have hmem : t ∈ s.sem.queue ++ s.lock.sem.queue ++ s.cond.waitingThreads := by
      cases r <;> simp [getSem] at hq <;> simp [hq]
    have hnd : (t :: rest).Nodup := by
      rw [← hq]
      cases r
      · exact (List.nodup_append.mp (List.nodup_append.mp f1).1).1
      · exact (List.nodup_append.mp (List.nodup_append.mp f1).1).2.1
    exact ⟨(f2 t hmem).2, (f2 t hmem).1, (List.nodup_cons.mp hnd).1⟩
  · intro t rest hq
    have hmem : t ∈ s.sem.queue ++ s.lock.sem.queue ++ s.cond.waitingThreads := by
      simp [hq]
    have hnd : (t :: rest).Nodup := by
      rw [← hq]
      exact (List.nodup_append.mp f1).2.1
    exact ⟨(f2 t hmem).2, (f2 t hmem).1, (List.nodup_cons.mp hnd).1⟩
  · intro e s1 hstep
    exact (sched_facts s1 (sched_step e s s1 hS1 hstep)).2.2.1

/-- Witness of C20: threads 1 and 2 wait on the condition while thread 0 holds the
lock (the run `traceTwoWaiters`). -/
theorem C20_waiters_are_suspended_witness :
    ∃ s, exec (initState 0 1 [2, 0]) traceTwoWaiters = some s ∧
      s.cond.waitingThreads = [1, 2] ∧ s.currentThread = some 0 ∧ s.readyList = [] ∧
      (s.sem.queue ++ s.lock.sem.queue ++ s.cond.waitingThreads).Nodup ∧
      (∀ t, t ∈ s.sem.queue ++ s.lock.sem.queue ++ s.cond.waitingThreads →
        s.currentThread ≠ some t ∧ t ∉ s.readyList) ∧
      s.readyList.Nodup ∧
      (∀ t, s.currentThread = some t → t ∉ s.readyList) ∧
      (∀ (r : SemRef) (t : Tid) (rest : List Tid), (getSem r s).queue = t :: rest →
        t ∉ s.readyList ∧ s.currentThread ≠ some t ∧ t ∉ rest) ∧
      (∀ (t : Tid) (rest : List Tid), s.cond.waitingThreads = t :: rest →
        t ∉ s.readyList ∧ s.currentThread ≠ some t ∧ t ∉ rest) ∧
      (∀ e s1, step e s = some s1 → s1.readyList.Nodup) :=
  ⟨_, rfl, rfl, rfl, rfl,
    C20_waiters_are_suspended (initState 0 1 [2, 0]) _ traceTwoWaiters
      (sched_initState 0 1 [2, 0] (by decide) (by decide)) rfl⟩

/-- An event changes the owner of the lock only if the running thread stands at
line 120 or at line 130. -/
theorem owner_step (e : Event) (s s1 : State) (h : step e s = some s1) :
    s1.lock.ownerThread = s.lock.ownerThread ∨
    ∃ c cl, s.currentThread = some c ∧
      ((s.threads c).pc = PC.Acquire_setOwner cl ∨ (s.threads c).pc = PC.Release_clear cl) := by
  obtain ⟨_, h | h | h | h | h | h⟩ := step_cases e s s1 h
  · obtain ⟨u, rfl, _, _, rfl⟩ := h
    exact Or.inl rfl
  · obtain ⟨c, old, rfl, _, _, rfl⟩ := h
    exact Or.inl rfl
  · obtain ⟨c, rfl, hc, hy, rfl⟩ := h
    generalize hpc : (s.threads c).pc = pc
    cases pc with
    | Acquire_setOwner cl => exact Or.inr ⟨c, cl, hc, Or.inl hpc⟩
    | Release_clear cl => exact Or.inr ⟨c, cl, hc, Or.inr hpc⟩
    | _ =>
      left
      simp only [runPC, runP_eq, runV, goto, Sleep, ASSERT, Finish, Fork, Yield_eq, getSem,
        setSem, Semaphore.V] <;>
      (try split_ifs) <;> rfl
  · obtain ⟨c, rfl, _, _, _, rfl⟩ := h
    left
    rw [Yield_eq]
    split_ifs <;> rfl
  · obtain ⟨c, op, rfl, _, _, _, rfl⟩ := h
    exact Or.inl rfl
  · obtain ⟨c, l, rfl, _, _, _, rfl⟩ := h
    exact Or.inl rfl

/-- An event removes a thread from the queue of the lock's semaphore only if the
running thread stands at the `V` of `Release`. -/
theorem lock_queue_step (e : Event) (s s1 : State) (h : step e s = some s1) :
    (∀ x, x ∈ s.lock.sem.queue → x ∈ s1.lock.sem.queue) ∨
    ∃ c cl, s.currentThread = some c ∧ (s.threads c).pc = PC.Release_V cl := by
  obtain ⟨_, h | h | h | h | h | h⟩ := step_cases e s s1 h
  · obtain ⟨u, rfl, _, _, rfl⟩ := h
    exact Or.inl fun x hx => hx
  · obtain ⟨c, old, rfl, _, _, rfl⟩ := h
    exact Or.inl fun x hx => hx
  · obtain ⟨c, rfl, hc, hy, rfl⟩ := h
    generalize hpc : (s.threads c).pc = pc
    cases pc with
    | Release_V cl => exact Or.inr ⟨c, cl, hc, hpc⟩
    | _ =>
      left
      intro x hx
      simp only [runPC, runP_eq, runV, goto, Sleep, ASSERT, Finish, Fork, Yield_eq, getSem,
        setSem, Semaphore.V, WaitQueue.Append]
      (try split_ifs) <;> first | exact hx | exact List.mem_append_left _ hx
  · obtain ⟨c, rfl, _, _, _, rfl⟩ := h
    left
    intro x hx
    rw [Yield_eq]
    split_ifs <;> exact hx
  · obtain ⟨c, op, rfl, _, _, _, rfl⟩ := h
    exact Or.inl fun x hx => hx
  · obtain ⟨c, l, rfl, _, _, _, rfl⟩ := h
    exact Or.inl fun x hx => hx

/-- A thread that owns the lock and is queued on the lock's semaphore stays so over
every event: it cannot run, nobody else can release. -/
theorem stuck_step (e : Event) (s s1 : State) (t : Tid) (ctl : ThreadCtl)
    (hI : Inv s) (hS : Sched s) (ho : s.lock.ownerThread = some t)
    (hth : s.threads t = ctl) (hq : t ∈ s.lock.sem.queue) (h : step e s = some s1) :
    s1.lock.ownerThread = some t ∧ s1.threads t = ctl ∧ t ∈ s1.lock.sem.queue := by
  have hmem : t ∈ s.sem.queue ++ s.lock.sem.queue ++ s.cond.waitingThreads := by
    simp [hq]
  have hcur := ((sched_facts s hS).2.1 t hmem).1
  have hocc : 1 ≤ occ s t := by
    have : 1 ≤ s.lock.sem.queue.count t := List.one_le_count_iff.mpr hq
    simp only [occ]
    omega
  have hnf : forkTarget s e ≠ some t := by
    intro hf
    obtain ⟨c, i, n, _, hpc, hx⟩ := forkTarget_some s e t hf
    have hlt : i < t := by rw [hx]; exact Nat.lt_succ_self i
    have := (hS.unborn c i n hpc t hlt).2
    omega
  refine ⟨?_, ?_, ?_⟩
  · rcases owner_step e s s1 h with h1 | ⟨c, cl, hc, h1 | h1⟩
    · rw [h1]; exact ho
    · have := (hI.pending_value c (by rw [h1]; rfl)).2
      rw [ho] at this
      exact absurd this (by simp)
    · have := hI.own c (by rw [h1]; rfl)
      rw [ho] at this
      have hct : t = c := Option.some.inj this
      rw [hc, ← hct] at hcur
      exact absurd rfl hcur
  · rw [threads_step e s s1 h t hcur hnf]
    exact hth
  · rcases lock_queue_step e s s1 h with h1 | ⟨c, cl, _, h1⟩
    · exact h1 t hq
    · have := (hI.pending_value c (by rw [h1]; rfl)).2
      rw [ho] at this
      exact absurd this (by simp)

/-- A thread that owns the lock and is queued on the lock's semaphore stays so over
every run. -/
theorem stuck_exec (es : List Event) (t : Tid) (ctl : ThreadCtl) :
    ∀ (s s1 : State), Inv s → Sched s → s.lock.ownerThread = some t → s.threads t = ctl →
      t ∈ s.lock.sem.queue → exec s es = some s1 →
      Inv s1 ∧ Sched s1 ∧ s1.lock.ownerThread = some t ∧ s1.threads t = ctl ∧
        t ∈ s1.lock.sem.queue := by
  induction es with
  | nil => intro s s1 hI hS ho hth hq h; simp [exec] at h; subst h; exact ⟨hI, hS, ho, hth, hq⟩
  | cons e es ih =>
    intro s s1 hI hS ho hth hq h
    simp only [exec] at h
    cases hs : step e s with
    | none => simp [hs] at h
    | some s2 =>
      simp [hs] at h
      obtain ⟨a, b, c⟩ := stuck_step e s s2 t ctl hI hS ho hth hq hs
      exact ih s2 s1 (inv_step e s s2 hI hs) (sched_step e s s2 hS hs) a b c h

/-- Claim C11: a thread `t` that owns the lock and calls `Acquire` again is appended
to the queue of the lock's semaphore and leaves the processor; in every state
reached afterwards `t` still stands at the loop test inside that `Acquire`, is
still queued, is neither running nor ready, the owner is still `t` and the value
still 0, and `Release` by any other thread fails its assertion. -/
theorem C11_reacquire_deadlocks (s0 s : State) (es : List Event) (h0 : Initial s0)
    (hS0 : Sched s0) (h : exec s0 es = some s) (t : Tid) (cl : Caller)
    (hab : s.aborted = false) (hcur : s.currentThread = some t)
    (hth : s.threads t = { pc := PC.Acquire_P cl, yielded := none })
    (ho : s.lock.ownerThread = some t) :
    ∃ s1, step Event.run s = some s1 ∧
      s1.lock.sem.queue = s.lock.sem.queue ++ [t] ∧ s1.currentThread = none ∧
      s1.threads t = { pc := PC.Acquire_P_loop cl s.level, yielded := none } ∧
      ∀ (es2 : List Event) (s2 : State), exec s1 es2 = some s2 →
        s2.threads t = { pc := PC.Acquire_P_loop cl s.level, yielded := none } ∧
        s2.lock.ownerThread = some t ∧ s2.lock.sem.value = 0 ∧
        t ∈ s2.lock.sem.queue ∧ s2.currentThread ≠ some t ∧ t ∉ s2.readyList ∧
        ∀ (u : Tid) (cl2 : Caller), u ≠ t →
          runPC u (PC.Release_assert cl2) s2 = { s2 with aborted := true } := by
  have hI := inv_reachable s0 s es h0 h
  have hS := sched_exec es s0 s hS0 h
  have hv := hI.owner_value t ho
  have hstep : step Event.run s = some (runPC t (PC.Acquire_P cl) s) := by
    simp [step, hab, hcur, hth]
  have hI1 := inv_step _ _ _ hI hstep
  have hS1 := sched_step _ _ _ hS hstep
  have hq1 : (runPC t (PC.Acquire_P cl) s).lock.sem.queue = s.lock.sem.queue ++ [t] := by
    simp [runPC, runP_eq, getSem, setSem, goto, Sleep, hv, WaitQueue.Append]
  have ho1 : (runPC t (PC.Acquire_P cl) s).lock.ownerThread = some t := by
    simp [runPC, runP_eq, getSem, setSem, goto, Sleep, hv, ho]
  have hth1 : (runPC t (PC.Acquire_P cl) s).threads t
      = { pc := PC.Acquire_P_loop cl s.level, yielded := none } := by
    simp [runPC, runP_eq, getSem, setSem, goto, Sleep, hv, setThread]
  refine ⟨_, hstep, hq1, ?_, hth1, ?_⟩
  · simp [runPC, runP_eq, getSem, setSem, goto, Sleep, hv]
  · intro es2 s2 hex
    have hmem1 : t ∈ (runPC t (PC.Acquire_P cl) s).lock.sem.queue := by
      rw [hq1]; simp
    obtain ⟨hI2, hS2, ho2, hth2, hq2⟩ :=
      stuck_exec es2 t _ _ s2 hI1 hS1 ho1 hth1 hmem1 hex
    have hmem : t ∈ s2.sem.queue ++ s2.lock.sem.queue ++ s2.cond.waitingThreads := by
      simp [hq2]
    have hf := (sched_facts s2 hS2).2.1 t hmem
    refine ⟨hth2, ho2, hI2.owner_value t ho2, hq2, hf.1, hf.2, ?_⟩
    intro u cl2 hut
    have : ¬ (t = u) := fun e => hut e.symm
    simp [runPC, ASSERT, ho2, this]

/-- Witness of C11: thread 0 acquires the lock and calls `Acquire` again; thread 1
then runs and calls `Release`, which fails its assertion. -/
theorem C11_reacquire_deadlocks_witness :
    ∃ s, exec (initState 0 0 [1])
        [Event.call Op.Acquire, Event.run, Event.run, Event.call Op.Acquire] = some s ∧
      s.lock.ownerThread = some 0 ∧
      ∃ s1, step Event.run s = some s1 ∧
        s1.lock.sem.queue = s.lock.sem.queue ++ [0] ∧ s1.currentThread = none ∧
        s1.threads 0 = { pc := PC.Acquire_P_loop Caller.client s.level, yielded := none } ∧
        ∀ (es2 : List Event) (s2 : State), exec s1 es2 = some s2 →
          s2.threads 0 = { pc := PC.Acquire_P_loop Caller.client s.level, yielded := none } ∧
          s2.lock.ownerThread = some 0 ∧ s2.lock.sem.value = 0 ∧
          0 ∈ s2.lock.sem.queue ∧ s2.currentThread ≠ some 0 ∧ 0 ∉ s2.readyList ∧
          ∀ (u : Tid) (cl2 : Caller), u ≠ 0 →
            runPC u (PC.Release_assert cl2) s2 = { s2 with aborted := true } :=
  ⟨_, rfl, rfl,
    C11_reacquire_deadlocks (initState 0 0 [1]) _
      [Event.call Op.Acquire, Event.run, Event.run, Event.call Op.Acquire]
      (initial_initState 0 0 [1]) (sched_initState 0 0 [1] (by decide) (by decide)) rfl
      0 Caller.client rfl rfl rfl (by rfl)⟩

/-- Claim C16 as stated fails on a negative counter: the loop test of `P` is
`value == 0`, so `P` returns when it finds a value below 0.  On a semaphore created
with value -1 the first `P` returns, having found -1, and leaves -2.  On a
semaphore created with `INT_MAX = 2147483647`, one `V` takes the `int` value to
`INT_MIN = -2147483648`; the next `P` returns, having found `INT_MIN`, and its
`value--` leaves `INT_MAX`, which is not the value found minus 1. -/
theorem C16_counterexample :
    (∃ s1 s2, exec (initState (-1) 0 []) [Event.call Op.P] = some s1 ∧
      step Event.run s1 = some s2 ∧
      s1.sem.value = -1 ∧ ¬ (0 < s1.sem.value) ∧
      (s1.threads 0).pc = PC.P_entry ∧ (s2.threads 0).pc = PC.client ∧
      returnsP s1 Event.run = true ∧ s2.sem.value = -2) ∧
    (∃ s1 s2, exec (initState 2147483647 0 [])
        [Event.call Op.V, Event.run, Event.call Op.P] = some s1 ∧
      step Event.run s1 = some s2 ∧
      s1.sem.value = -2147483648 ∧ ¬ (0 < s1.sem.value) ∧
      (s1.threads 0).pc = PC.P_entry ∧ (s2.threads 0).pc = PC.client ∧
      returnsP s1 Event.run = true ∧ s2.sem.value = 2147483647 ∧
      s2.sem.value ≠ s1.sem.value - 1) := by
  refine ⟨⟨_, _, rfl, rfl, ?_⟩, ⟨_, _, rfl, rfl, ?_⟩⟩
  · decide
  · decide

/-- Claim C16, amended: the loop test of `P` is evaluated again on every resume.  In
any state, a thread resumed at the loop test with the value at 0 does not return
and does not decrement: it is appended at the tail of the queue and sleeps, at the
same program point; `P` returns exactly when the test finds a value different from
0, and then stores the 32-bit result of `value - 1` and restores the saved interrupt
level.  On a counter that is not negative, `0 <= value <= INT_MAX = 2147483647`,
`P` returns exactly when it finds the value greater than 0, and the value it leaves
is then exactly the value found minus 1.  The counter is not negative in every state
reached from a semaphore created with `c0 >= 0` by a run in which `c0` plus the
number of `V` completed does not exceed `INT_MAX`. -/
theorem C16_P_rechecks_on_resume (t : Tid) (old : IntStatus) :
    (∀ s3 : State, s3.sem.value = 0 →
      (runPC t (PC.P_loop old) s3).sem = { value := 0, queue := s3.sem.queue ++ [t] } ∧
      ((runPC t (PC.P_loop old) s3).threads t).pc = PC.P_loop old ∧
      (runPC t (PC.P_loop old) s3).currentThread = none ∧
      (runPC t (PC.P_loop old) s3).readyList = s3.readyList) ∧
    (∀ s3 : State,
      (((runPC t (PC.P_loop old) s3).threads t).pc = PC.client ↔ s3.sem.value ≠ 0) ∧
      (((runPC t PC.P_entry s3).threads t).pc = PC.client ↔ s3.sem.value ≠ 0)) ∧
    (∀ s3 : State, s3.sem.value ≠ 0 →
      (runPC t (PC.P_loop old) s3).sem
        = { value := wrap32 (s3.sem.value - 1), queue := s3.sem.queue } ∧
      (runPC t (PC.P_loop old) s3).level = old ∧
      (runPC t (PC.P_loop old) s3).currentThread = s3.currentThread) ∧
    (∀ s3 : State, 0 ≤ s3.sem.value → s3.sem.value ≤ 2147483647 →
      (((runPC t (PC.P_loop old) s3).threads t).pc = PC.client ↔ 0 < s3.sem.value) ∧
      (((runPC t PC.P_entry s3).threads t).pc = PC.client ↔ 0 < s3.sem.value) ∧
      (0 < s3.sem.value →
        (runPC t (PC.P_loop old) s3).sem
          = { value := s3.sem.value - 1, queue := s3.sem.queue } ∧
        (runPC t PC.P_entry s3).sem
          = { value := s3.sem.value - 1, queue := s3.sem.queue })) ∧
    (∀ (c0 : Int) (s0 s : State) (es : List Event), 0 ≤ c0 → s0.sem = Semaphore.new c0 →
      exec s0 es = some s → c0 + (countOf completesV s0 es : Int) ≤ 2147483647 →
      (0 ≤ s.sem.value ∧ s.sem.value ≤ 2147483647) ∧
      (((runPC t (PC.P_loop old) s).threads t).pc = PC.client ↔ 0 < s.sem.value) ∧
      (((runPC t PC.P_entry s).threads t).pc = PC.client ↔ 0 < s.sem.value)) := by
  have key : ∀ s3 : State,
      (((runPC t (PC.P_loop old) s3).threads t).pc = PC.client ↔ s3.sem.value ≠ 0) ∧
      (((runPC t PC.P_entry s3).threads t).pc = PC.client ↔ s3.sem.value ≠ 0) := by
    intro s3
    by_cases hv : s3.sem.value = 0 <;>
      simp [runPC, runP_eq, getSem, setSem, goto, Sleep, hv, setThread]
  have nonneg : ∀ s3 : State, 0 ≤ s3.sem.value →
      (((runPC t (PC.P_loop old) s3).threads t).pc = PC.client ↔ 0 < s3.sem.value) ∧
      (((runPC t PC.P_entry s3).threads t).pc = PC.client ↔ 0 < s3.sem.value) := by
    intro s3 h0
    have hpos : s3.sem.value ≠ 0 ↔ 0 < s3.sem.value := by omega
    rw [(key s3).1, (key s3).2, hpos]
    exact ⟨Iff.rfl, Iff.rfl⟩
  refine ⟨?_, key, ?_, ?_, ?_⟩
  · intro s3 hv
    simp [runPC, runP_eq, getSem, setSem, goto, Sleep, hv, WaitQueue.Append, setThread]
  · intro s3 hv
    simp [runPC, runP_eq, getSem, setSem, goto, Sleep, hv]
  · intro s3 h0 hmax
    refine ⟨(nonneg s3 h0).1, (nonneg s3 h0).2, ?_⟩
    intro hpos
    have hv : s3.sem.value ≠ 0 := by omega
    have hw : wrap32 (s3.sem.value - 1) = s3.sem.value - 1 :=
      wrap32_of_range _ (by omega) (by omega)
    simp [runPC, runP_eq, getSem, setSem, goto, Sleep, hv, hw]
  · intro c0 s0 s es hc h0 h hb
    have hv : s0.sem.value = c0 := by rw [h0]; rfl
    obtain ⟨hbal, hs⟩ :=
      exec_sem_value es s0 s (by rw [hv]; exact hc) (by rw [hv]; exact hb) h
    have hP : 0 ≤ (countOf returnsP s0 es : Int) := Int.natCast_nonneg _
    have hmax : s.sem.value ≤ 2147483647 := by rw [hbal, hv]; omega
    exact ⟨⟨hs, hmax⟩, (nonneg s hs).1, (nonneg s hs).2⟩

/-- Witness of C16, amended: the run `traceRecheck`; thread 1, made ready by the `V`
of thread 0, finds the value back at 0 and blocks again at the tail of the queue.
On a semaphore of value 1 the first `P` finds 1, which is greater than 0, returns
and leaves 0. -/
theorem C16_P_rechecks_on_resume_witness :
    (∃ s, exec (initState 0 1 [0]) traceRecheck = some s ∧
      s.currentThread = some 1 ∧ (s.threads 1).pc = PC.P_loop IntStatus.IntOn ∧
      s.sem = { value := 0, queue := [] } ∧
      (runPC 1 (PC.P_loop IntStatus.IntOn) s).sem = { value := 0, queue := s.sem.queue ++ [1] } ∧
      ((runPC 1 (PC.P_loop IntStatus.IntOn) s).threads 1).pc = PC.P_loop IntStatus.IntOn ∧
      (runPC 1 (PC.P_loop IntStatus.IntOn) s).currentThread = none ∧
      (runPC 1 (PC.P_loop IntStatus.IntOn) s).readyList = s.readyList) ∧
    ((0 : Int) < (initState 1 0 []).sem.value ∧
      ((runPC 0 PC.P_entry (initState 1 0 [])).threads 0).pc = PC.client ∧
      (runPC 0 PC.P_entry (initState 1 0 [])).sem
        = { value := (initState 1 0 []).sem.value - 1, queue := (initState 1 0 []).sem.queue } ∧
      (runPC 0 PC.P_entry (initState 1 0 [])).sem.value = 0) :=
  ⟨⟨_, rfl, rfl, rfl, rfl, (C16_P_rechecks_on_resume 1 IntStatus.IntOn).1 _ rfl⟩,
    ⟨by decide,
      ((C16_P_rechecks_on_resume 0 IntStatus.IntOn).2.2.2.1 (initState 1 0 [])
        (by decide) (by decide)).2.1.mpr (by decide),
      (((C16_P_rechecks_on_resume 0 IntStatus.IntOn).2.2.2.1 (initState 1 0 [])
        (by decide) (by decide)).2.2 (by decide)).2,
      by decide⟩⟩

/-- A thread suspended inside an atomic section keeps its program point, with the
level it saved, over every event, until its own transition leaves the section and
restores that level. -/
theorem saved_level_step (e : Event) (s s1 : State) (c : Tid) (l : IntStatus)
    (hS : Sched s) (h : step e s = some s1) (hl : (s.threads c).pc.savedLevel = some l) :
    (s1.threads c).pc = (s.threads c).pc ∨
    (e = Event.run ∧ s.currentThread = some c ∧ (s1.threads c).pc.savedLevel = none ∧
      s1.level = l) := by
  by_cases hcur : s.currentThread = some c
  · obtain ⟨_, h | h | h | h | h | h⟩ := step_cases e s s1 h
    · obtain ⟨u, rfl, hc, _, rfl⟩ := h
      exact Or.inl rfl
    · obtain ⟨c2, old, rfl, hc, hy, rfl⟩ := h
      have : c2 = c := by rw [hc] at hcur; exact Option.some.inj hcur
      subst this
      left; simp [goto, setThread]
    · obtain ⟨c2, rfl, hc, hy, rfl⟩ := h
      have : c2 = c := by rw [hc] at hcur; exact Option.some.inj hcur
      subst this
      generalize hq : (s.threads c2).pc = pc at hl
      cases pc with
      | P_loop old =>
        simp [PC.savedLevel] at hl
        subst hl
        simp only [runPC, runP_eq, getSem, setSem, goto, Sleep]
        split_ifs
        · left; simp [setThread]
        · right; simp [setThread, PC.savedLevel, hc]
      | Acquire_P_loop cl old =>
        simp [PC.savedLevel] at hl
        subst hl
        simp only [runPC, runP_eq, getSem, setSem, goto, Sleep]
        split_ifs
        · left; simp [setThread]
        · right; simp [setThread, PC.savedLevel, hc]
      | Wait_resume old =>
        simp [PC.savedLevel] at hl
        subst hl
        right
        simp [runPC, goto, setThread, PC.savedLevel, hc]
      | _ => simp [PC.savedLevel] at hl
    · obtain ⟨c2, rfl, hc, _, _, rfl⟩ := h
      have : c2 = c := by rw [hc] at hcur; exact Option.some.inj hcur
      subst this
      left
      rw [Yield_eq]
      split_ifs <;> simp [goto, setThread]
    · obtain ⟨c2, op, rfl, hc, _, hcl, rfl⟩ := h
      have : c2 = c := by rw [hc] at hcur; exact Option.some.inj hcur
      subst this
      rw [hcl] at hl
      simp [PC.savedLevel] at hl
    · obtain ⟨c2, l2, rfl, _, _, _, rfl⟩ := h
      exact Or.inl rfl
  · left
    have hnf : forkTarget s e ≠ some c := by
      intro hf
      obtain ⟨f, i, n, _, hpc, hx⟩ := forkTarget_some s e c hf
      have hlt : i < c := by rw [hx]; exact Nat.lt_succ_self i
      have := (hS.unborn f i n hpc c hlt).1
      rw [this] at hl
      simp [PC.savedLevel] at hl
    rw [threads_step e s s1 h c hcur hnf]

/-- Over every run, a thread suspended inside an atomic section either is still at
the same program point or has left the section by a transition of its own that
restored the level saved at entry. -/
theorem saved_level_exec (es : List Event) (c : Tid) (l : IntStatus) :
    ∀ (s s2 : State), Sched s → exec s es = some s2 →
      (s.threads c).pc.savedLevel = some l →
      (s2.threads c).pc = (s.threads c).pc ∨
      ∃ (es1 es2 : List Event) (sa sb : State),
        es = es1 ++ Event.run :: es2 ∧ exec s es1 = some sa ∧
        sa.currentThread = some c ∧ (sa.threads c).pc = (s.threads c).pc ∧
        step Event.run sa = some sb ∧ (sb.threads c).pc.savedLevel = none ∧ sb.level = l := by
  induction es with
  | nil => intro s s2 _ h _; simp [exec] at h; subst h; exact Or.inl rfl
  | cons e es ih =>
    intro s s2 hS h hl
    simp only [exec] at h
    cases hs : step e s with
    | none => simp [hs] at h
    | some s1 =>
      simp [hs] at h
      rcases saved_level_step e s s1 c l hS hs hl with hsame | ⟨he, hcur, hnone, hlev⟩
      · have hl1 : (s1.threads c).pc.savedLevel = some l := by rw [hsame]; exact hl
        rcases ih s1 s2 (sched_step e s s1 hS hs) h hl1 with h2 | ⟨es1, es2, sa, sb, h2⟩
        · left; rw [h2, hsame]
        · right
          obtain ⟨a1, a2, a3, a4, a5, a6, a7⟩ := h2
          refine ⟨e :: es1, es2, sa, sb, by rw [a1]; rfl, ?_, a3, by rw [a4, hsame], a5, a6, a7⟩
          simp [exec, hs, a2]
      · right
        subst he
        exact ⟨[], es, s, s1, rfl, rfl, hcur, rfl, hs, hnone, hlev⟩

/-- Claim C17: every atomic section restores the interrupt level found at its
entry.  `V`, `Signal` and `Broadcast` leave the level as they found it.  `P` and
the section of `Wait` save the level `l` found at entry: `P` either returns at once
with level `l` or suspends with `l` saved and interrupts off; `Wait` always
suspends so.  Over every run from a state in which a thread is suspended with saved
level `l`, the thread stays at its program point until a transition of its own
leaves the section, and the level right after that transition is `l`, whether `l`
is on or off. -/
theorem C17_level_restored (s : State) (c : Tid) (l : IntStatus) (hS : Sched s)
    (hl : (s.threads c).pc.savedLevel = some l) :
    (∀ (s3 : State) (cl : Caller),
      (runPC c PC.V_entry s3).level = s3.level ∧
      (runPC c (PC.Release_V cl) s3).level = s3.level ∧
      (runPC c PC.Signal_body s3).level = s3.level ∧
      (runPC c PC.Broadcast_body s3).level = s3.level ∧
      ((((runPC c PC.P_entry s3).threads c).pc = PC.client ∧
          (runPC c PC.P_entry s3).level = s3.level) ∨
        (((runPC c PC.P_entry s3).threads c).pc.savedLevel = some s3.level ∧
          (runPC c PC.P_entry s3).level = IntStatus.IntOff ∧
          (runPC c PC.P_entry s3).currentThread = none)) ∧
      ((((runPC c (PC.Acquire_P cl) s3).threads c).pc = PC.Acquire_setOwner cl ∧
          (runPC c (PC.Acquire_P cl) s3).level = s3.level) ∨
        (((runPC c (PC.Acquire_P cl) s3).threads c).pc.savedLevel = some s3.level ∧
          (runPC c (PC.Acquire_P cl) s3).level = IntStatus.IntOff ∧
          (runPC c (PC.Acquire_P cl) s3).currentThread = none)) ∧
      ((runPC c PC.Wait_enqueue s3).threads c).pc.savedLevel = some s3.level ∧
      (runPC c PC.Wait_enqueue s3).level = IntStatus.IntOff ∧
      (runPC c PC.Wait_enqueue s3).currentThread = none) ∧
    (∀ (es : List Event) (s2 : State), exec s es = some s2 →
      (s2.threads c).pc = (s.threads c).pc ∨
      ∃ (es1 es2 : List Event) (sa sb : State),
        es = es1 ++ Event.run :: es2 ∧ exec s es1 = some sa ∧
        sa.currentThread = some c ∧ (sa.threads c).pc = (s.threads c).pc ∧
        step Event.run sa = some sb ∧ (sb.threads c).pc.savedLevel = none ∧
        sb.level = l) := by
  refine ⟨?_, ?_⟩
  · intro s3 cl
    refine ⟨rfl, rfl, rfl, rfl, ?_, ?_, ?_, rfl, rfl⟩
    · simp only [runPC, runP_eq, getSem, setSem, goto, Sleep]
      split_ifs
      · right; simp [setThread, PC.savedLevel]
      · left; simp [setThread]
    · simp only [runPC, runP_eq, getSem, setSem, goto, Sleep]
      split_ifs
      · right; simp [setThread, PC.savedLevel]
      · left; simp [setThread]
    · simp [runPC, goto, Sleep, setThread, PC.savedLevel]
  · intro es s2 hex
    exact saved_level_exec es c l s s2 hS hex hl

/-- Witness of C17: thread 0 disables interrupts and calls `P` on value 0; it is
suspended with the level off saved.  Thread 1 runs with interrupts on and calls
`V`; when thread 0 runs again its `P` returns and interrupts are off again. -/
theorem C17_level_restored_witness :
    ∃ s, exec (initState 0 0 [1]) traceMaskedP = some s ∧
      (s.threads 0).pc = PC.P_loop IntStatus.IntOff ∧
      (∃ s2, exec s traceMaskedResume = some s2 ∧ (s2.threads 0).pc = PC.client ∧
        s2.level = IntStatus.IntOff) ∧
      ∀ (es : List Event) (s2 : State), exec s es = some s2 →
        (s2.threads 0).pc = (s.threads 0).pc ∨
        ∃ (es1 es2 : List Event) (sa sb : State),
          es = es1 ++ Event.run :: es2 ∧ exec s es1 = some sa ∧
          sa.currentThread = some 0 ∧ (sa.threads 0).pc = (s.threads 0).pc ∧
          step Event.run sa = some sb ∧ (sb.threads 0).pc.savedLevel = none ∧
          sb.level = IntStatus.IntOff :=
  ⟨_, rfl, rfl, ⟨_, rfl, rfl, rfl⟩,
    (C17_level_restored _ 0 IntStatus.IntOff
      (sched_exec traceMaskedP (initState 0 0 [1]) _
        (sched_initState 0 0 [1] (by decide) (by decide)) rfl) (by rfl)).2⟩

end Nachos
